import Mathlib

/-!
Shallow embedding of the rsort streaming deduplication engine
(src/chunk_processor.rs, src/deduplicator.rs, src/progress.rs).

The input file is modelled as a list of bytes (naturals below 256); the line
terminator is byte 10.  Reading a line with BufRead::read_line is modelled by
takeLine and dropLine: read_until consumes up to and including the first
terminator, then the consumed bytes are validated as UTF-8; on failure the
bytes stay consumed and an InvalidData error is reported, which is exactly
what the Rust standard library does.  String::to_lowercase applies the full
Unicode lowercase mapping; the concrete toLowerBytes below is its ASCII
restriction (with which it agrees on ASCII content) and is used for concrete
evaluation only.  The global deduplication theorems are stated for the
pipeline with the per-line fingerprint left abstract (procLineH and its
callers), quantified over every lowercase mapping and every fingerprint that
identifies lines with equal lowercased content, so they cover the program's
actual fingerprint: DefaultHasher over the Unicode-lowercased line.
DefaultHasher is modelled as SipHash-1-3 with zero keys over the line bytes
followed by the 0xff marker byte, as in the Hash instance for str.
-/

namespace Rsort

abbrev Byte := Nat

/-- Bytes consumed by one read_line call: everything up to and including the
first terminator, or all remaining bytes when no terminator occurs. -/
def takeLine : List Byte → List Byte
  | [] => []
  | b :: r => if b = 10 then [10] else b :: takeLine r

/-- Rest of the stream after one read_line call. -/
def dropLine : List Byte → List Byte
  | [] => []
  | _b :: r => if _b = 10 then r else dropLine r

/-- Lines of a byte stream, each including its terminator; a final line
without terminator is kept as well. -/
def segs : List Byte → List (List Byte)
  | [] => []
  | b :: r =>
    if b = 10 then [10] :: segs r
    else
      match segs r with
      | [] => [[b]]
      | s :: ss => (b :: s) :: ss

/-- Continuation byte of a multi-byte UTF-8 sequence. -/
def isCont (b : Byte) : Bool := 128 ≤ b && b ≤ 191

/-- UTF-8 validity of a byte sequence, following the table used by
str::from_utf8 (excludes overlong forms, surrogates and values beyond
U+10FFFF). -/
def validUtf8 : List Byte → Bool
  | [] => true
  | b :: r =>
    if b ≤ 127 then validUtf8 r
    else if 194 ≤ b && b ≤ 223 then
      match r with
      | c :: r2 => isCont c && validUtf8 r2
      | [] => false
    else if b = 224 then
      match r with
      | c :: d :: r2 => (160 ≤ c && c ≤ 191) && isCont d && validUtf8 r2
      | _ => false
    else if 225 ≤ b && b ≤ 236 then
      match r with
      | c :: d :: r2 => isCont c && isCont d && validUtf8 r2
      | _ => false
    else if b = 237 then
      match r with
      | c :: d :: r2 => (128 ≤ c && c ≤ 159) && isCont d && validUtf8 r2
      | _ => false
    else if 238 ≤ b && b ≤ 239 then
      match r with
      | c :: d :: r2 => isCont c && isCont d && validUtf8 r2
      | _ => false
    else if b = 240 then
      match r with
      | c :: d :: e :: r2 => (144 ≤ c && c ≤ 191) && isCont d && isCont e && validUtf8 r2
      | _ => false
    else if 241 ≤ b && b ≤ 243 then
      match r with
      | c :: d :: e :: r2 => isCont c && isCont d && isCont e && validUtf8 r2
      | _ => false
    else if b = 244 then
      match r with
      | c :: d :: e :: r2 => (128 ≤ c && c ≤ 143) && isCont d && isCont e && validUtf8 r2
      | _ => false
    else false

/-- ASCII restriction of String::to_lowercase: bytes 65 to 90 are shifted to
97 to 122 and every other byte is left alone.  The Rust function also folds
non-ASCII characters, so this is only the ASCII instance; it is used for the
concrete evaluations on ASCII input, while the global deduplication claims
quantify over the lowercase mapping instead of relying on this definition. -/
def toLowerBytes (l : List Byte) : List Byte :=
  l.map (fun b => if 65 ≤ b && b ≤ 90 then b + 32 else b)

/-! SipHash-1-3 with zero keys: the algorithm behind
std::collections::hash_map::DefaultHasher. -/

def W64 : Nat := 18446744073709551616

def wrap (x : Nat) : Nat := x % W64

def rotl (x r : Nat) : Nat := wrap (x <<< r) ||| (x >>> (64 - r))

structure SipState where
  v0 : Nat
  v1 : Nat
  v2 : Nat
  v3 : Nat

def sipRound (s : SipState) : SipState :=
  let v0 := wrap (s.v0 + s.v1)
  let v1 := rotl s.v1 13
  let v1 := v1 ^^^ v0
  let v0 := rotl v0 32
  let v2 := wrap (s.v2 + s.v3)
  let v3 := rotl s.v3 16
  let v3 := v3 ^^^ v2
  let v0 := wrap (v0 + v3)
  let v3 := rotl v3 21
  let v3 := v3 ^^^ v0
  let v2 := wrap (v2 + v1)
  let v1 := rotl v1 17
  let v1 := v1 ^^^ v2
  let v2 := rotl v2 32
  ⟨v0, v1, v2, v3⟩

/-- Little-endian word from at most eight bytes. -/
def leWord : List Byte → Nat
  | [] => 0
  | b :: r => b + 256 * leWord r

/-- Process the message in 8-byte blocks (one compression round each), then
the final block carrying the length byte, then three finalization rounds. -/
def sipLoop : SipState → List Byte → Nat → Nat
  | s, b0 :: b1 :: b2 :: b3 :: b4 :: b5 :: b6 :: b7 :: rest, len =>
    let m := leWord [b0, b1, b2, b3, b4, b5, b6, b7]
    let s1 := sipRound ⟨s.v0, s.v1, s.v2, s.v3 ^^^ m⟩
    sipLoop ⟨s1.v0 ^^^ m, s1.v1, s1.v2, s1.v3⟩ rest len
  | s, tail, len =>
    let b := wrap ((len % 256) <<< 56) ||| leWord tail
    let s1 := sipRound ⟨s.v0, s.v1, s.v2, s.v3 ^^^ b⟩
    let s2 : SipState := ⟨s1.v0 ^^^ b, s1.v1, s1.v2 ^^^ 255, s1.v3⟩
    let s3 := sipRound (sipRound (sipRound s2))
    s3.v0 ^^^ s3.v1 ^^^ s3.v2 ^^^ s3.v3

def sipHash13 (msg : List Byte) : Nat :=
  sipLoop ⟨0x736f6d6570736575, 0x646f72616e646f6d, 0x6c7967656e657261, 0x7465646279746573⟩
    msg msg.length

/-- hash_string from chunk_processor.rs: DefaultHasher over the lowercased
string; hashing a str feeds its bytes followed by a 0xff marker byte. -/
def hash_string (s : List Byte) : Nat := sipHash13 (toLowerBytes s ++ [255])

/-- Fingerprint actually computed per line by process_chunk_stream: the line
is lowercased once into key_lower, and hash_string lowercases again. -/
def hashOf (line : List Byte) : Nat := hash_string (toLowerBytes line)

/-! The data model. -/

structure Chunk where
  start_offset : Nat
  end_offset : Nat
deriving DecidableEq

inductive PErr where
  | invalidChunk : PErr
  | readError : PErr
deriving DecidableEq

/-- Run state: the write log (one entry per write_all call), the buffered
sink (flushed bytes and unflushed buffer), the shared dedup set (kept as the
insertion-ordered list of fingerprints) and the two metric counters. -/
structure PState where
  written : List (List Byte)
  flushed : List Byte
  buf : List Byte
  seen : List Nat
  lines_processed : Nat
  duplicates_removed : Nat
deriving DecidableEq

def initState : PState := ⟨[], [], [], [], 0, 0⟩

/-- BufWriter capacity used by the orchestrator (1 MB). -/
def CAP : Nat := 1048576

def sinkFlush (st : PState) : PState :=
  { st with flushed := st.flushed ++ st.buf, buf := [] }

/-- BufWriter::write_all: flush first when the write does not fit, write
through when the payload is at least the capacity, buffer otherwise. -/
def sinkWrite (st : PState) (p : List Byte) : PState :=
  let st1 := if CAP < st.buf.length + p.length then sinkFlush st else st
  if CAP ≤ p.length then { st1 with flushed := st1.flushed ++ p }
  else { st1 with buf := st1.buf ++ p }

/-- Per-line body of the loop in process_chunk_stream (lines 100-117 of
chunk_processor.rs): count the line, fingerprint it, test-and-insert into the
global set, write first occurrences, count duplicates, and flush whenever the
set size is a multiple of 100000. -/
def procLine (st : PState) (line : List Byte) : PState :=
  let st1 := { st with lines_processed := st.lines_processed + 1 }
  let h := hashOf line
  let st2 :=
    if h ∈ st1.seen then { st1 with duplicates_removed := st1.duplicates_removed + 1 }
    else sinkWrite { st1 with seen := st1.seen ++ [h], written := st1.written ++ [line] } line
  if st2.seen.length % 100000 = 0 then sinkFlush st2 else st2

/-- Reading loop of process_chunk_stream.  Stops when the tracked offset
reaches the chunk end or the stream is exhausted; a read that does not decode
fails the chunk; a read of a lone terminator would be skipped by the
is_empty check (transcribed as written in the source).  Fuel is an upper
bound on the number of iterations; each iteration consumes at least one byte,
so (length of the stream + 1) is always enough. -/
def procLoop : Nat → List Byte → Nat → Nat → PState → Except PErr Unit × PState
  | 0, _, _, _, st => (Except.ok (), st)
  | fuel + 1, rem, endOff, off, st =>
    if endOff ≤ off then (Except.ok (), st)
    else if rem = [] then (Except.ok (), st)
    else
      let line := takeLine rem
      if validUtf8 line = false then (Except.error PErr.readError, st)
      else
        let off2 := off + line.length
        if line = [] ∧ line.length = 1 then procLoop fuel (dropLine rem) endOff off2 st
        else procLoop fuel (dropLine rem) endOff off2 (procLine st line)

/-- process_chunk_stream: validate the start offset against the file size,
then seek to the start offset and stream lines. -/
def process_chunk_stream (data : List Byte) (chunk : Chunk) (st : PState) :
    Except PErr Unit × PState :=
  if data.length < chunk.start_offset then (Except.error PErr.invalidChunk, st)
  else procLoop (data.length + 1) (data.drop chunk.start_offset) chunk.end_offset
    chunk.start_offset st

/-- Raw-byte recovery scan of find_chunk_boundaries: consume bytes one at a
time until a terminator is found or more than 10000 bytes were skipped;
returns the number of bytes consumed, whether a terminator was found, and the
rest of the stream.  The counter argument is the number of bytes skipped
before this call. -/
def recoveryScan : List Byte → Nat → Nat × Bool × List Byte
  | [], _ => (0, false, [])
  | b :: r, k =>
    if b = 10 then (1, true, r)
    else if 10000 < k + 1 then (1, false, r)
    else
      let t := recoveryScan r (k + 1)
      (t.1 + 1, t.2.1, t.2.2)

/-- Scanning loop of find_chunk_boundaries.  State: remaining stream, tracked
offset, current chunk start, current chunk size, chunks so far.  A read_line
failure consumes the offending line from the stream but, as in the source,
does not advance the tracked offset; the recovery scan then counts the bytes
it skips.  Returns the chunks together with the final offset, chunk start and
chunk size. -/
def scanLoop (target : Nat) :
    Nat → List Byte → Nat → Nat → Nat → List Chunk → List Chunk × Nat × Nat × Nat
  | 0, _, off, start, size, chunks => (chunks, off, start, size)
  | fuel + 1, rem, off, start, size, chunks =>
    if rem = [] then (chunks, off, start, size)
    else
      let line := takeLine rem
      if validUtf8 line then
        let size2 := size + line.length
        let off2 := off + line.length
        if target ≤ size2 then
          scanLoop target fuel (dropLine rem) off2 off2 0 (chunks ++ [⟨start, off2⟩])
        else scanLoop target fuel (dropLine rem) off2 start size2 chunks
      else
        let t := recoveryScan (dropLine rem) 0
        let off2 := off + t.1
        let size2 := size + t.1
        if t.2.1 then
          if target ≤ size2 then
            scanLoop target fuel t.2.2 off2 off2 0 (chunks ++ [⟨start, off2⟩])
          else scanLoop target fuel t.2.2 off2 start size2 chunks
        else (chunks, off2, start, size2)

/-- After the scanning loop: flush a final chunk when bytes remain
unaccounted (the result components are chunks, offset, chunk start, chunk
size). -/
def scanFin (r : List Chunk × Nat × Nat × Nat) : List Chunk :=
  if 0 < r.2.2.2 then r.1 ++ [⟨r.2.2.1, r.2.1⟩] else r.1

/-- find_chunk_boundaries: scan the whole file, flush a final chunk when
bytes remain unaccounted, and fall back to one chunk covering the scanned
range when no chunk was produced. -/
def find_chunk_boundaries (data : List Byte) (target : Nat) : List Chunk :=
  let r := scanLoop target (data.length + 1) data 0 0 0 []
  let chunks := scanFin r
  if chunks = [] then [⟨0, r.2.1⟩] else chunks

/-- Chunk loop of Deduplicator::process: process chunks in order against the
shared state, flushing after every 50th chunk; the first failure aborts the
run. -/
def chunkLoop (data : List Byte) : List Chunk → Nat → PState → Except PErr PState
  | [], _, st => Except.ok st
  | c :: cs, idx, st =>
    match process_chunk_stream data c st with
    | (Except.error e, _) => Except.error e
    | (Except.ok _, st2) =>
      let st3 := if (idx + 1) % 50 = 0 then sinkFlush st2 else st2
      chunkLoop data cs (idx + 1) st3

/-- Deduplicator::process: discover the chunk boundaries, validate every
start offset against the file size, process the chunks sequentially against
one output sink and one dedup set, and flush before returning. -/
def deduplicator_process (data : List Byte) (target : Nat) : Except PErr PState :=
  let chunks := find_chunk_boundaries data target
  if chunks.any (fun c => data.length < c.start_offset) then Except.error PErr.invalidChunk
  else
    match chunkLoop data chunks 0 initState with
    | Except.error e => Except.error e
    | Except.ok st => Except.ok (sinkFlush st)

/-- Final state of a run, for concrete evaluation. -/
def runStateOf (data : List Byte) (target : Nat) : PState :=
  match deduplicator_process data target with
  | Except.ok st => st
  | Except.error _ => initState

/-! Proof-side abstractions: the observable part of the state, the pure
per-line fold that the chunked pipeline refines on decodable input, and the
chunk grouping that find_chunk_boundaries computes on decodable input. -/

/-- Observable state: write log, dedup set, counters (everything except the
sink buffering, whose flush points depend on chunking). -/
structure LState where
  written : List (List Byte)
  seen : List Nat
  lines_processed : Nat
  duplicates_removed : Nat
deriving DecidableEq

def initL : LState := ⟨[], [], 0, 0⟩

def projL (st : PState) : LState :=
  ⟨st.written, st.seen, st.lines_processed, st.duplicates_removed⟩

/-- Sink-free counterpart of procLine. -/
def lineStep (st : LState) (line : List Byte) : LState :=
  let st1 := { st with lines_processed := st.lines_processed + 1 }
  let h := hashOf line
  if h ∈ st1.seen then { st1 with duplicates_removed := st1.duplicates_removed + 1 }
  else { st1 with seen := st1.seen ++ [h], written := st1.written ++ [line] }

/-- Pure reference semantics: fold the per-line step over a list of lines. -/
def runL (st : LState) (ls : List (List Byte)) : LState := ls.foldl lineStep st

/-- Total bytes held by the sink (flushed plus still buffered). -/
def content (st : PState) : List Byte := st.flushed ++ st.buf

/-- Well-terminated list of lines: every line followed by another one ends
with the terminator. -/
def TermWF (sl : List (List Byte)) : Prop :=
  ∀ pre x post, sl = pre ++ x :: post → post ≠ [] → x.getLast? = some 10

def lenSum (g : List (List Byte)) : Nat := (g.map List.length).sum

/-- Chunks induced by consecutive group sizes starting at a base offset. -/
def chunkOffsets : Nat → List Nat → List Chunk
  | _, [] => []
  | o, n :: ns => ⟨o, o + n⟩ :: chunkOffsets (o + n) ns

/-- Greedy grouping of lines into chunks: close the open group as soon as its
byte size reaches the target.  This is what the scanning loop of
find_chunk_boundaries computes on decodable input. -/
def groupSegsLoop (target : Nat) :
    List (List Byte) → List (List Byte) → Nat → List (List (List Byte))
  | [], acc, size => if 0 < size then [acc] else []
  | s :: rest, acc, size =>
    if target ≤ size + s.length then (acc ++ [s]) :: groupSegsLoop target rest [] 0
    else groupSegsLoop target rest (acc ++ [s]) (size + s.length)

def groupsOf (data : List Byte) (target : Nat) : List (List (List Byte)) :=
  groupSegsLoop target (segs data) [] 0

/-- Length of the longest line of the input (terminator included). -/
def maxSegLen (data : List Byte) : Nat :=
  ((segs data).map List.length).foldr Nat.max 0

/-! The processing pipeline with the per-line fingerprint left abstract.
The source computes the fingerprint as hash_string(&line.to_lowercase()),
where String::to_lowercase applies the full Unicode lowercase mapping; the
concrete hashOf above is its restriction to ASCII input.  The definitions
below are process_chunk_stream and Deduplicator::process verbatim with the
fingerprint function hf as a parameter: instantiating hf with the program's
fingerprint (DefaultHasher over the Unicode-lowercased line) yields the
program, and instantiating it with hashOf yields the concrete pipeline
above.  Boundary discovery neither lowercases nor hashes, so
find_chunk_boundaries is shared. -/

/-- procLine with the fingerprint abstract; body identical to procLine. -/
def procLineH (hf : List Byte → Nat) (st : PState) (line : List Byte) : PState :=
  let st1 := { st with lines_processed := st.lines_processed + 1 }
  let h := hf line
  let st2 :=
    if h ∈ st1.seen then { st1 with duplicates_removed := st1.duplicates_removed + 1 }
    else sinkWrite { st1 with seen := st1.seen ++ [h], written := st1.written ++ [line] } line
  if st2.seen.length % 100000 = 0 then sinkFlush st2 else st2

/-- procLoop with the fingerprint abstract; body identical to procLoop. -/
def procLoopH (hf : List Byte → Nat) :
    Nat → List Byte → Nat → Nat → PState → Except PErr Unit × PState
  | 0, _, _, _, st => (Except.ok (), st)
  | fuel + 1, rem, endOff, off, st =>
    if endOff ≤ off then (Except.ok (), st)
    else if rem = [] then (Except.ok (), st)
    else
      let line := takeLine rem
      if validUtf8 line = false then (Except.error PErr.readError, st)
      else
        let off2 := off + line.length
        if line = [] ∧ line.length = 1 then procLoopH hf fuel (dropLine rem) endOff off2 st
        else procLoopH hf fuel (dropLine rem) endOff off2 (procLineH hf st line)

/-- process_chunk_stream with the fingerprint abstract. -/
def process_chunk_streamH (hf : List Byte → Nat) (data : List Byte) (chunk : Chunk)
    (st : PState) : Except PErr Unit × PState :=
  if data.length < chunk.start_offset then (Except.error PErr.invalidChunk, st)
  else procLoopH hf (data.length + 1) (data.drop chunk.start_offset) chunk.end_offset
    chunk.start_offset st

/-- Chunk loop of Deduplicator::process with the fingerprint abstract. -/
def chunkLoopH (hf : List Byte → Nat) (data : List Byte) :
    List Chunk → Nat → PState → Except PErr PState
  | [], _, st => Except.ok st
  | c :: cs, idx, st =>
    match process_chunk_streamH hf data c st with
    | (Except.error e, _) => Except.error e
    | (Except.ok _, st2) =>
      let st3 := if (idx + 1) % 50 = 0 then sinkFlush st2 else st2
      chunkLoopH hf data cs (idx + 1) st3

/-- Deduplicator::process with the fingerprint abstract. -/
def deduplicator_processH (hf : List Byte → Nat) (data : List Byte) (target : Nat) :
    Except PErr PState :=
  let chunks := find_chunk_boundaries data target
  if chunks.any (fun c => data.length < c.start_offset) then Except.error PErr.invalidChunk
  else
    match chunkLoopH hf data chunks 0 initState with
    | Except.error e => Except.error e
    | Except.ok st => Except.ok (sinkFlush st)

/-- Final state of a run of the abstract-fingerprint pipeline, for concrete
evaluation. -/
def runStateOfH (hf : List Byte → Nat) (data : List Byte) (target : Nat) : PState :=
  match deduplicator_processH hf data target with
  | Except.ok st => st
  | Except.error _ => initState

/-- Sink-free counterpart of procLineH. -/
def lineStepH (hf : List Byte → Nat) (st : LState) (line : List Byte) : LState :=
  let st1 := { st with lines_processed := st.lines_processed + 1 }
  let h := hf line
  if h ∈ st1.seen then { st1 with duplicates_removed := st1.duplicates_removed + 1 }
  else { st1 with seen := st1.seen ++ [h], written := st1.written ++ [line] }

/-- Pure reference semantics with the fingerprint abstract. -/
def runLH (hf : List Byte → Nat) (st : LState) (ls : List (List Byte)) : LState :=
  ls.foldl (lineStepH hf) st

/-- Groups that the scanning loop has already closed when the stream of lines
runs out: the greedy grouping of groupSegsLoop without its trailing open
group. -/
def closedGroups (target : Nat) :
    List (List Byte) → List (List Byte) → Nat → List (List (List Byte))
  | [], _, _ => []
  | s :: rest, acc, size =>
    if target ≤ size + s.length then (acc ++ [s]) :: closedGroups target rest [] 0
    else closedGroups target rest (acc ++ [s]) (size + s.length)

/-- The open group still being accumulated when the stream of lines runs
out. -/
def openAcc (target : Nat) :
    List (List Byte) → List (List Byte) → Nat → List (List Byte)
  | [], acc, _ => acc
  | s :: rest, acc, size =>
    if target ≤ size + s.length then openAcc target rest [] 0
    else openAcc target rest (acc ++ [s]) (size + s.length)

/-! Concrete inputs used by the witnesses and counterexamples. -/

/-- Bytes of Apple NL apple NL Banana NL APPLE NL. -/
def appleIn : List Byte :=
  [65, 112, 112, 108, 101, 10, 97, 112, 112, 108, 101, 10,
   66, 97, 110, 97, 110, 97, 10, 65, 80, 80, 76, 69, 10]

/-- Bytes of Apple NL Banana NL. -/
def appleOut : List Byte :=
  [65, 112, 112, 108, 101, 10, 66, 97, 110, 97, 110, 97, 10]

/-! Structural lemmas about lines. -/

theorem segs_eq_nil_iff (d : List Byte) : segs d = [] ↔ d = [] := by
  cases d with
  | nil => simp [segs]
  | cons b r =>
    simp only [segs]
    split
    · simp
    · split <;> simp

theorem flatten_segs (d : List Byte) : (segs d).flatten = d := by
  induction d with
  | nil => simp [segs]
  | cons b r ih =>
    simp only [segs]
    split
    · simp_all
    · split
      · next heq =>
        have hr : r = [] := (segs_eq_nil_iff r).mp heq
        simp [hr]
      · next s ss heq =>
        rw [heq] at ih
        simp_all

theorem mem_segs_ne_nil (d : List Byte) : ∀ s ∈ segs d, s ≠ [] := by
  induction d with
  | nil => simp [segs]
  | cons b r ih =>
    simp only [segs]
    split
    · intro s hs
      rcases List.mem_cons.mp hs with h | h
      · simp [h]
      · exact ih s h
    · split
      · simp
      · next s ss heq =>
        intro x hx
        rcases List.mem_cons.mp hx with h | h
        · simp [h]
        · exact ih x (heq ▸ List.mem_cons_of_mem s h)

theorem takeLine_segs {d : List Byte} {s : List Byte} {ss : List (List Byte)}
    (h : segs d = s :: ss) : takeLine d = s := by
  induction d generalizing s ss with
  | nil => simp [segs] at h
  | cons b r ih =>
    simp only [segs] at h
    by_cases hb : b = 10
    · simp [hb] at h
      simp [takeLine, hb, h.1]
    · simp only [if_neg hb] at h
      rcases hr : segs r with _ | ⟨s1, ss1⟩
      · rw [hr] at h
        simp only [List.cons.injEq] at h
        have : r = [] := (segs_eq_nil_iff r).mp hr
        simp [takeLine, hb, ← h.1, this]
      · rw [hr] at h
        simp only [List.cons.injEq] at h
        have := ih hr
        simp [takeLine, hb, this, ← h.1]

theorem segs_dropLine {d : List Byte} {s : List Byte} {ss : List (List Byte)}
    (h : segs d = s :: ss) : segs (dropLine d) = ss := by
  induction d generalizing s ss with
  | nil => simp [segs] at h
  | cons b r ih =>
    simp only [segs] at h
    by_cases hb : b = 10
    · simp [hb] at h
      simp [dropLine, hb, h.2]
    · simp only [if_neg hb] at h
      rcases hr : segs r with _ | ⟨s1, ss1⟩
      · rw [hr] at h
        simp only [List.cons.injEq] at h
        have : r = [] := (segs_eq_nil_iff r).mp hr
        simp [dropLine, hb, ← h.2, this, segs]
      · rw [hr] at h
        simp only [List.cons.injEq] at h
        have := ih hr
        simp [dropLine, hb, this, ← h.2]

theorem dropLine_flatten {d : List Byte} {s : List Byte} {ss : List (List Byte)}
    (h : segs d = s :: ss) : dropLine d = ss.flatten := by
  have h2 := segs_dropLine h
  rw [← flatten_segs (dropLine d), h2]

theorem takeLine_length_pos {d : List Byte} (h : d ≠ []) : 0 < (takeLine d).length := by
  cases d with
  | nil => simp at h
  | cons b r =>
    simp only [takeLine]
    split <;> simp

theorem takeLine_dropLine_length (d : List Byte) :
    d.length = (takeLine d).length + (dropLine d).length := by
  induction d with
  | nil => simp [takeLine, dropLine]
  | cons b r ih =>
    simp only [takeLine, dropLine]
    split <;> simp <;> omega

theorem mem_segs_noMid (d : List Byte) : ∀ s ∈ segs d, (10 : Byte) ∉ s.dropLast := by
  induction d with
  | nil => simp [segs]
  | cons b r ih =>
    simp only [segs]
    split
    · intro s hs
      rcases List.mem_cons.mp hs with h | h
      · simp [h]
      · exact ih s h
    · next hb =>
      split
      · simp
      · next s ss heq =>
        intro x hx
        rcases List.mem_cons.mp hx with h | h
        · have hs : s ≠ [] := mem_segs_ne_nil r s (heq ▸ List.mem_cons_self s ss)
          have hd : (b :: s).dropLast = b :: s.dropLast := List.dropLast_cons_of_ne_nil hs
          have h10 : (10 : Byte) ∉ s.dropLast := ih s (heq ▸ List.mem_cons_self s ss)
          rw [h, hd]
          simp only [List.mem_cons, not_or]
          exact ⟨fun hc => hb hc.symm, h10⟩
        · exact ih x (heq ▸ List.mem_cons_of_mem s h)

theorem segs_cons_nl (r : List Byte) : segs (10 :: r) = [10] :: segs r := by
  conv_lhs => rw [segs]
  simp

theorem segs_cons_of_ne {b : Byte} {r : List Byte} (hb : b ≠ 10) {s : List Byte}
    {ss : List (List Byte)} (h : segs r = s :: ss) : segs (b :: r) = (b :: s) :: ss := by
  conv_lhs => rw [segs]
  rw [if_neg hb, h]

theorem termwf_nil : TermWF [] := by
  intro pre x post h
  simp at h

theorem termwf_cons {a : List Byte} {sl : List (List Byte)} :
    TermWF (a :: sl) ↔ ((sl ≠ [] → a.getLast? = some 10) ∧ TermWF sl) := by
  constructor
  · intro h
    refine ⟨fun hne => h [] a sl rfl hne, ?_⟩
    intro pre x post hsl hpost
    exact h (a :: pre) x post (by simp [hsl]) hpost
  · rintro ⟨h1, h2⟩ pre x post hsl hpost
    cases pre with
    | nil =>
      simp at hsl
      rw [← hsl.1]
      exact h1 (by rw [hsl.2]; exact hpost)
    | cons p pre2 =>
      simp at hsl
      exact h2 pre2 x post hsl.2 hpost

theorem getLast?_cons_of_ne_nil {a : Byte} {s : List Byte} (h : s ≠ []) :
    (a :: s).getLast? = s.getLast? := by
  cases s with
  | nil => exact absurd rfl h
  | cons c s2 => simp [List.getLast?_cons_cons]

theorem termwf_segs (d : List Byte) : TermWF (segs d) := by
  induction d with
  | nil => simpa [segs] using termwf_nil
  | cons b r ih =>
    simp only [segs]
    split
    · exact termwf_cons.mpr ⟨fun _ => by simp, ih⟩
    · next hb =>
      split
      · next heq =>
        exact termwf_cons.mpr ⟨fun h => absurd rfl h, termwf_nil⟩
      · next s ss heq =>
        rw [heq] at ih
        have hih := termwf_cons.mp ih
        refine termwf_cons.mpr ⟨fun hne => ?_, hih.2⟩
        have hs : s ≠ [] := mem_segs_ne_nil r s (heq ▸ List.mem_cons_self s ss)
        rw [getLast?_cons_of_ne_nil hs]
        exact hih.1 hne

theorem termwf_suffix {A B : List (List Byte)} (h : TermWF (A ++ B)) : TermWF B := by
  intro pre x post hB hpost
  exact h (A ++ pre) x post (by simp [hB]) hpost

theorem termwf_of_sublist {W sl : List (List Byte)} (hsub : List.Sublist W sl)
    (h : TermWF sl) : TermWF W := by
  induction hsub with
  | slnil => exact termwf_nil
  | cons a hs ih => exact ih ((termwf_cons.mp h).2)
  | cons₂ a hs ih =>
    have hc := termwf_cons.mp h
    refine termwf_cons.mpr ⟨fun hne => ?_, ih hc.2⟩
    apply hc.1
    intro hnil
    rw [hnil] at hs
    exact hne (List.sublist_nil.mp hs)

theorem segs_append_of_terminated {x : List Byte} (t : List Byte) (hne : x ≠ [])
    (hmid : (10 : Byte) ∉ x.dropLast) (hlast : x.getLast? = some 10) :
    segs (x ++ t) = x :: segs t := by
  induction x with
  | nil => exact absurd rfl hne
  | cons b x2 ih =>
    cases x2 with
    | nil =>
      simp at hlast
      simp [hlast, segs]
    | cons c x3 =>
      have hd : (b :: c :: x3).dropLast = b :: (c :: x3).dropLast :=
        List.dropLast_cons_of_ne_nil (List.cons_ne_nil c x3)
      rw [hd] at hmid
      simp only [List.mem_cons, not_or] at hmid
      have hb : b ≠ 10 := fun h => hmid.1 h.symm
      have hl : (c :: x3).getLast? = some 10 := by
        rwa [getLast?_cons_of_ne_nil (List.cons_ne_nil c x3)] at hlast
      have hstep := ih (List.cons_ne_nil c x3) (by simpa using hmid.2) hl
      rw [List.cons_append, segs_cons_of_ne hb hstep]

theorem segs_single {x : List Byte} (hne : x ≠ []) (hmid : (10 : Byte) ∉ x.dropLast) :
    segs x = [x] := by
  induction x with
  | nil => exact absurd rfl hne
  | cons b x2 ih =>
    cases x2 with
    | nil =>
      by_cases hb : b = 10 <;> simp [segs, hb]
    | cons c x3 =>
      have hd : (b :: c :: x3).dropLast = b :: (c :: x3).dropLast :=
        List.dropLast_cons_of_ne_nil (List.cons_ne_nil c x3)
      rw [hd] at hmid
      simp only [List.mem_cons, not_or] at hmid
      have hb : b ≠ 10 := fun h => hmid.1 h.symm
      have hstep := ih (List.cons_ne_nil c x3) (by simpa using hmid.2)
      rw [segs_cons_of_ne hb hstep]

theorem segs_flatten_eq {sl : List (List Byte)} (hne : ∀ x ∈ sl, x ≠ [])
    (hmid : ∀ x ∈ sl, (10 : Byte) ∉ x.dropLast) (hwf : TermWF sl) :
    segs sl.flatten = sl := by
  induction sl with
  | nil => simp [segs]
  | cons x rest ih =>
    cases rest with
    | nil => simpa using segs_single (hne x (by simp)) (hmid x (by simp))
    | cons y rest2 =>
      have hlast : x.getLast? = some 10 := (termwf_cons.mp hwf).1 (List.cons_ne_nil y rest2)
      have hstep := segs_append_of_terminated (y :: rest2).flatten (hne x (by simp))
        (hmid x (by simp)) hlast
      have hflat : (x :: y :: rest2).flatten = x ++ (y :: rest2).flatten := by simp
      rw [hflat, hstep, ih (fun a ha => hne a (List.mem_cons_of_mem x ha))
        (fun a ha => hmid a (List.mem_cons_of_mem x ha)) ((termwf_cons.mp hwf).2)]

/-! Lemmas about the grouping of lines into chunks. -/

theorem lenSum_nil : lenSum [] = 0 := rfl

theorem lenSum_append_single (acc : List (List Byte)) (s : List Byte) :
    lenSum (acc ++ [s]) = lenSum acc + s.length := by
  simp [lenSum]

theorem lenSum_eq_length_flatten (g : List (List Byte)) : lenSum g = g.flatten.length := by
  simp [lenSum]

theorem groupSegsLoop_flatten (target : Nat) :
    ∀ (sl acc : List (List Byte)) (size : Nat), (∀ x ∈ sl, x ≠ []) →
    lenSum acc = size → (size = 0 → acc = []) →
    (groupSegsLoop target sl acc size).flatten = acc ++ sl := by
  intro sl
  induction sl with
  | nil =>
    intro acc size _ h1 h2
    simp only [groupSegsLoop]
    split
    · simp
    · next hs =>
      have hz : size = 0 := by omega
      simp [h2 hz]
  | cons s rest ih =>
    intro acc size hel h1 h2
    have hslen : 0 < s.length :=
      List.length_pos.mpr (hel s (List.mem_cons_self s rest))
    simp only [groupSegsLoop]
    split
    · have hrec := ih [] 0 (fun x hx => hel x (List.mem_cons_of_mem s hx)) rfl (fun _ => rfl)
      simp only [List.flatten_cons, hrec]
      simp
    · have hrec := ih (acc ++ [s]) (size + s.length)
        (fun x hx => hel x (List.mem_cons_of_mem s hx))
        (by rw [lenSum_append_single, h1]) (fun h => absurd h (by omega))
      rw [hrec]
      simp

theorem groupSegsLoop_groups_ne_nil (target : Nat) :
    ∀ (sl acc : List (List Byte)) (size : Nat), lenSum acc = size →
    ∀ g ∈ groupSegsLoop target sl acc size, g ≠ [] := by
  intro sl
  induction sl with
  | nil =>
    intro acc size h1 g hg
    simp only [groupSegsLoop] at hg
    split at hg
    · next hs =>
      simp at hg
      rw [hg]
      intro hacc
      rw [hacc] at h1
      simp [lenSum_nil] at h1
      omega
    · simp at hg
  | cons s rest ih =>
    intro acc size h1 g hg
    simp only [groupSegsLoop] at hg
    split at hg
    · rcases List.mem_cons.mp hg with h | h
      · simp [h]
      · exact ih [] 0 rfl g h
    · exact ih (acc ++ [s]) (size + s.length) (by rw [lenSum_append_single, h1]) g hg

theorem groupSegsLoop_ne_nil (target : Nat) :
    ∀ (sl acc : List (List Byte)) (size : Nat), sl ≠ [] → (∀ x ∈ sl, x ≠ []) →
    groupSegsLoop target sl acc size ≠ [] := by
  intro sl
  induction sl with
  | nil => intro acc size h; exact absurd rfl h
  | cons s rest ih =>
    intro acc size _ hel
    have hslen : 0 < s.length :=
      List.length_pos.mpr (hel s (List.mem_cons_self s rest))
    simp only [groupSegsLoop]
    split
    · simp
    · cases hr : rest with
      | nil =>
        simp only [groupSegsLoop]
        have : 0 < size + s.length := by omega
        simp [this]
      | cons y r2 =>
        rw [← hr]
        exact ih (acc ++ [s]) (size + s.length) (by simp [hr])
          (fun x hx => hel x (List.mem_cons_of_mem s hx))

/-- On decodable input the scanning loop of find_chunk_boundaries computes
exactly the chunks induced by the greedy grouping of the lines. -/
theorem scanLoop_valid (target : Nat) :
    ∀ (sl : List (List Byte)) (d : List Byte) (fuel start size : Nat)
      (chunks : List Chunk) (acc : List (List Byte)),
    segs d = sl → (∀ x ∈ sl, validUtf8 x = true) → d.length < fuel → lenSum acc = size →
    scanFin (scanLoop target fuel d (start + size) start size chunks) =
      chunks ++ chunkOffsets start ((groupSegsLoop target sl acc size).map lenSum) := by
  intro sl
  induction sl with
  | nil =>
    intro d fuel start size chunks acc hsegs hv hfuel hacc
    have hd : d = [] := (segs_eq_nil_iff d).mp hsegs
    subst hd
    obtain ⟨f, rfl⟩ : ∃ f, fuel = f + 1 := ⟨fuel - 1, by omega⟩
    have hstep : scanLoop target (f + 1) [] (start + size) start size chunks =
        (chunks, start + size, start, size) := by
      simp [scanLoop]
    rw [hstep]
    by_cases hs : 0 < size
    · simp [scanFin, groupSegsLoop, chunkOffsets, hs, hacc]
    · simp [scanFin, groupSegsLoop, chunkOffsets, hs]
  | cons s rest ih =>
    intro d fuel start size chunks acc hsegs hv hfuel hacc
    have hdne : d ≠ [] := by
      intro h
      rw [h] at hsegs
      simp [segs] at hsegs
    have htake : takeLine d = s := takeLine_segs hsegs
    have hdrop : segs (dropLine d) = rest := segs_dropLine hsegs
    have hvs : validUtf8 s = true := hv s (List.mem_cons_self s rest)
    have hsne : s ≠ [] := mem_segs_ne_nil d s (hsegs ▸ List.mem_cons_self s rest)
    have hslen : 0 < s.length := List.length_pos.mpr hsne
    have hdlen : (dropLine d).length + s.length = d.length := by
      have := takeLine_dropLine_length d
      rw [htake] at this
      omega
    obtain ⟨f, rfl⟩ : ∃ f, fuel = f + 1 := ⟨fuel - 1, by omega⟩
    have hfuel2 : (dropLine d).length < f := by omega
    have hstep : scanLoop target (f + 1) d (start + size) start size chunks =
        (if target ≤ size + s.length then
          scanLoop target f (dropLine d) (start + size + s.length)
            (start + size + s.length) 0 (chunks ++ [⟨start, start + size + s.length⟩])
        else
          scanLoop target f (dropLine d) (start + size + s.length) start
            (size + s.length) chunks) := by
      simp only [scanLoop]
      rw [if_neg hdne, htake]
      simp [hvs, Nat.add_assoc]
    rw [hstep]
    by_cases hcond : target ≤ size + s.length
    · rw [if_pos hcond]
      have hrec := ih (dropLine d) f (start + size + s.length) 0
        (chunks ++ [⟨start, start + size + s.length⟩]) [] hdrop
        (fun x hx => hv x (List.mem_cons_of_mem s hx)) hfuel2 rfl
      rw [Nat.add_zero] at hrec
      rw [hrec]
      have hgroup : groupSegsLoop target (s :: rest) acc size =
          (acc ++ [s]) :: groupSegsLoop target rest [] 0 := by
        simp only [groupSegsLoop]
        rw [if_pos hcond]
      rw [hgroup]
      simp only [List.map_cons, chunkOffsets, lenSum_append_single, hacc]
      rw [List.append_assoc]
      simp [Nat.add_assoc]
    · rw [if_neg hcond]
      have hrec := ih (dropLine d) f start (size + s.length) chunks (acc ++ [s]) hdrop
        (fun x hx => hv x (List.mem_cons_of_mem s hx)) hfuel2
        (by rw [lenSum_append_single, hacc])
      rw [← Nat.add_assoc] at hrec
      rw [hrec]
      have hgroup : groupSegsLoop target (s :: rest) acc size =
          groupSegsLoop target rest (acc ++ [s]) (size + s.length) := by
        simp only [groupSegsLoop]
        rw [if_neg hcond]
      rw [hgroup]

theorem chunkOffsets_ne_nil {o : Nat} {n : Nat} {ns : List Nat} :
    chunkOffsets o (n :: ns) ≠ [] := by
  simp [chunkOffsets]

/-- On decodable nonempty input, find_chunk_boundaries returns the chunks of
the greedy grouping of the lines. -/
theorem find_chunk_boundaries_valid {data : List Byte} (target : Nat)
    (hv : ∀ x ∈ segs data, validUtf8 x = true) (hne : data ≠ []) :
    find_chunk_boundaries data target =
      chunkOffsets 0 ((groupsOf data target).map lenSum) := by
  have h := scanLoop_valid target (segs data) data (data.length + 1) 0 0 [] [] rfl hv
    (by omega) rfl
  rw [Nat.add_zero] at h
  have hslne : segs data ≠ [] := fun hc => hne ((segs_eq_nil_iff data).mp hc)
  have hgne : groupSegsLoop target (segs data) [] 0 ≠ [] :=
    groupSegsLoop_ne_nil target (segs data) [] 0 hslne (mem_segs_ne_nil data)
  have hcne : chunkOffsets 0 ((groupSegsLoop target (segs data) [] 0).map lenSum) ≠ [] := by
    cases hg : groupSegsLoop target (segs data) [] 0 with
    | nil => exact absurd hg hgne
    | cons a gs => simp [chunkOffsets]
  simp only [find_chunk_boundaries, groupsOf]
  rw [h]
  simp only [List.nil_append, groupsOf] at hcne ⊢
  rw [if_neg hcne]

/-! Projection and sink-content lemmas. -/

theorem lenSum_cons (x : List Byte) (g : List (List Byte)) :
    lenSum (x :: g) = x.length + lenSum g := by
  simp [lenSum]

theorem projL_sinkFlush (st : PState) : projL (sinkFlush st) = projL st := rfl

theorem projL_sinkWrite (st : PState) (p : List Byte) :
    projL (sinkWrite st p) = projL st := by
  simp only [sinkWrite]
  split <;> split <;> rfl

theorem projL_procLine (st : PState) (l : List Byte) :
    projL (procLine st l) = lineStep (projL st) l := by
  simp only [procLine, lineStep]
  by_cases hm : hashOf l ∈ st.seen
  · have hm2 : hashOf l ∈ ({ st with lines_processed := st.lines_processed + 1 } : PState).seen := hm
    rw [if_pos hm2]
    have hm3 : hashOf l ∈ (projL st).seen := hm
    rw [show ({ projL st with lines_processed := (projL st).lines_processed + 1 } : LState).seen
        = (projL st).seen from rfl] at hm3 ⊢
    rw [if_pos hm3]
    split <;> rfl
  · have hm2 : hashOf l ∉ ({ st with lines_processed := st.lines_processed + 1 } : PState).seen := hm
    rw [if_neg hm2]
    have hm3 : hashOf l ∉ ({ projL st with lines_processed :=
        (projL st).lines_processed + 1 } : LState).seen := hm
    rw [if_neg hm3]
    split
    · rw [projL_sinkFlush, projL_sinkWrite]
      rfl
    · rw [projL_sinkWrite]
      rfl

theorem content_sinkFlush (st : PState) : content (sinkFlush st) = content st := by
  simp [content, sinkFlush]

theorem content_sinkWrite (st : PState) (p : List Byte) :
    content (sinkWrite st p) = content st ++ p := by
  simp only [sinkWrite]
  by_cases h1 : CAP < st.buf.length + p.length
  · rw [if_pos h1]
    split <;> simp [content, sinkFlush]
  · rw [if_neg h1]
    by_cases h2 : CAP ≤ p.length
    · rw [if_pos h2]
      have hbuf : st.buf = [] := by
        have : st.buf.length = 0 := by omega
        exact List.length_eq_zero.mp this
      simp [content, hbuf]
    · rw [if_neg h2]
      simp [content]

theorem content_procLine (st : PState) (l : List Byte) :
    content (procLine st l) =
      content st ++ (if hashOf l ∈ st.seen then [] else l) := by
  simp only [procLine]
  by_cases hm : hashOf l ∈ st.seen
  · have hm2 : hashOf l ∈ ({ st with lines_processed := st.lines_processed + 1 } : PState).seen := hm
    rw [if_pos hm2, if_pos hm]
    split
    · rw [content_sinkFlush]
      simp [content]
    · simp [content]
  · have hm2 : hashOf l ∉ ({ st with lines_processed := st.lines_processed + 1 } : PState).seen := hm
    rw [if_neg hm2, if_neg hm]
    split
    · rw [content_sinkFlush, content_sinkWrite]
      simp [content]
    · rw [content_sinkWrite]
      simp [content]

theorem written_procLine (st : PState) (l : List Byte) :
    (procLine st l).written =
      st.written ++ (if hashOf l ∈ st.seen then [] else [l]) := by
  have h := projL_procLine st l
  have hw : (procLine st l).written = (projL (procLine st l)).written := rfl
  rw [hw, h]
  simp only [lineStep]
  by_cases hm : hashOf l ∈ st.seen
  · have hm3 : hashOf l ∈ ({ projL st with lines_processed :=
        (projL st).lines_processed + 1 } : LState).seen := hm
    rw [if_pos hm3, if_pos hm]
    simp [projL]
  · have hm3 : hashOf l ∉ ({ projL st with lines_processed :=
        (projL st).lines_processed + 1 } : LState).seen := hm
    rw [if_neg hm3, if_neg hm]
    simp [projL]

theorem content_inv_procLine {st : PState} (l : List Byte)
    (hinv : content st = st.written.flatten) :
    content (procLine st l) = (procLine st l).written.flatten := by
  rw [content_procLine, written_procLine, hinv]
  split <;> simp

/-! The streaming processor on a line-aligned chunk is the fold of the
per-line step over the lines of the chunk. -/

theorem procLoop_groups :
    ∀ (g : List (List Byte)) (t2 : List Byte) (s : Nat) (st : PState) (fuel : Nat),
    (∀ x ∈ g, validUtf8 x = true) →
    segs (g.flatten ++ t2) = g ++ segs t2 →
    (g.flatten ++ t2).length < fuel →
    procLoop fuel (g.flatten ++ t2) (s + lenSum g) s st =
      (Except.ok (), g.foldl procLine st) := by
  intro g
  induction g with
  | nil =>
    intro t2 s st fuel _ _ _
    cases fuel with
    | zero => simp [procLoop]
    | succ f =>
      simp [procLoop, lenSum_nil]
  | cons x g2 ih =>
    intro t2 s st fuel hv hsegs hfuel
    have hsegs2 : segs ((x :: g2).flatten ++ t2) = x :: (g2 ++ segs t2) := by
      rw [hsegs, List.cons_append]
    have hxne : x ≠ [] := by
      apply mem_segs_ne_nil ((x :: g2).flatten ++ t2)
      rw [hsegs2]
      exact List.mem_cons_self x (g2 ++ segs t2)
    have hxlen : 0 < x.length := List.length_pos.mpr hxne
    have hflat : (x :: g2).flatten ++ t2 = x ++ (g2.flatten ++ t2) := by simp
    have htake : takeLine ((x :: g2).flatten ++ t2) = x := takeLine_segs hsegs2
    have hdropf : dropLine ((x :: g2).flatten ++ t2) = g2.flatten ++ t2 := by
      have h2 := dropLine_flatten hsegs2
      rw [h2]
      simp [flatten_segs]
    have hdrops : segs (g2.flatten ++ t2) = g2 ++ segs t2 := by
      have h2 := segs_dropLine hsegs2
      rw [hdropf] at h2
      rw [h2]
    have hrlen : ((x :: g2).flatten ++ t2).length = x.length + (g2.flatten ++ t2).length := by
      simp
    obtain ⟨f, rfl⟩ : ∃ f, fuel = f + 1 := ⟨fuel - 1, by omega⟩
    have hne2 : (x :: g2).flatten ++ t2 ≠ [] := by
      rw [hflat]
      exact fun hc => hxne (List.append_eq_nil.mp hc).1
    have hoff : ¬ (s + lenSum (x :: g2) ≤ s) := by
      rw [lenSum_cons]
      omega
    have hvx : validUtf8 x = true := hv x (List.mem_cons_self x g2)
    have hstep : procLoop (f + 1) ((x :: g2).flatten ++ t2) (s + lenSum (x :: g2)) s st =
        procLoop f (g2.flatten ++ t2) (s + lenSum (x :: g2)) (s + x.length)
          (procLine st x) := by
      simp only [procLoop, if_neg hoff, if_neg hne2, htake, hvx]
      have hskip : ¬ (x = [] ∧ x.length = 1) := fun hc => hxne hc.1
      have hdropf2 : dropLine (x ++ (g2.flatten ++ t2)) = g2.flatten ++ t2 := by
        rw [← hflat]
        exact hdropf
      simp [hskip, hdropf, hdropf2]
    rw [hstep]
    have harith : s + lenSum (x :: g2) = (s + x.length) + lenSum g2 := by
      rw [lenSum_cons]
      omega
    rw [harith]
    have := ih t2 (s + x.length) (procLine st x) f
      (fun y hy => hv y (List.mem_cons_of_mem x hy)) hdrops (by omega)
    rw [this]
    simp

theorem segs_suffix_restore {D : List Byte} {A B : List (List Byte)}
    (h : segs D = A ++ B) : segs B.flatten = B := by
  apply segs_flatten_eq
  · intro x hx
    exact mem_segs_ne_nil D x (h ▸ List.mem_append_right A hx)
  · intro x hx
    exact mem_segs_noMid D x (h ▸ List.mem_append_right A hx)
  · exact termwf_suffix (h ▸ termwf_segs D)

theorem projL_foldl (g : List (List Byte)) (st : PState) :
    projL (g.foldl procLine st) = runL (projL st) g := by
  induction g generalizing st with
  | nil => rfl
  | cons x g2 ih =>
    simp only [List.foldl_cons, runL]
    rw [ih, ← projL_procLine]
    rfl

theorem content_inv_foldl (g : List (List Byte)) (st : PState)
    (h : content st = st.written.flatten) :
    content (g.foldl procLine st) = (g.foldl procLine st).written.flatten := by
  induction g generalizing st with
  | nil => exact h
  | cons x g2 ih => exact ih (procLine st x) (content_inv_procLine x h)

/-- process_chunk_stream on a line-aligned chunk of decodable data folds the
per-line step over the chunk's lines. -/
theorem process_chunk_aligned {data : List Byte} {g : List (List Byte)} {t2 : List Byte}
    {o : Nat} (st : PState) (ho : o ≤ data.length)
    (hdrop : data.drop o = g.flatten ++ t2)
    (hsegs : segs (g.flatten ++ t2) = g ++ segs t2)
    (hv : ∀ x ∈ g, validUtf8 x = true) :
    process_chunk_stream data ⟨o, o + lenSum g⟩ st =
      (Except.ok (), g.foldl procLine st) := by
  have hlen : (g.flatten ++ t2).length < data.length + 1 := by
    rw [← hdrop, List.length_drop]
    omega
  simp only [process_chunk_stream]
  rw [if_neg (show ¬ data.length < o by omega), hdrop]
  exact procLoop_groups g t2 o st (data.length + 1) hv hsegs hlen

theorem lenSum_append (a b : List (List Byte)) : lenSum (a ++ b) = lenSum a + lenSum b := by
  simp [lenSum]

theorem sum_map_lenSum (gs : List (List (List Byte))) :
    (gs.map lenSum).sum = lenSum gs.flatten := by
  induction gs with
  | nil => simp [lenSum]
  | cons g gs2 ih => simp [lenSum_append, ih]

theorem chunkOffsets_mem_bounds :
    ∀ (ns : List Nat) (o : Nat) (c : Chunk), c ∈ chunkOffsets o ns →
      o ≤ c.start_offset ∧ c.start_offset ≤ c.end_offset ∧ c.end_offset ≤ o + ns.sum := by
  intro ns
  induction ns with
  | nil => intro o c hc; simp [chunkOffsets] at hc
  | cons n ns2 ih =>
    intro o c hc
    simp only [chunkOffsets] at hc
    rcases List.mem_cons.mp hc with h | h
    · rw [h]
      simp only [List.sum_cons]
      omega
    · have := ih (o + n) c h
      simp only [List.sum_cons]
      omega

/-- Processing the chunks of an aligned grouping succeeds and computes, in
observable state, the fold of the per-line step over all lines. -/
theorem chunkLoop_groups (data : List Byte) :
    ∀ (gs : List (List (List Byte))) (o idx : Nat) (st : PState),
    (∀ g ∈ gs, ∀ x ∈ g, validUtf8 x = true) →
    (∀ g ∈ gs, g ≠ []) →
    data.drop o = gs.flatten.flatten →
    segs (data.drop o) = gs.flatten →
    content st = st.written.flatten →
    ∃ st2, chunkLoop data (chunkOffsets o (gs.map lenSum)) idx st = Except.ok st2 ∧
      projL st2 = runL (projL st) gs.flatten ∧
      content st2 = st2.written.flatten := by
  intro gs
  induction gs with
  | nil =>
    intro o idx st _ _ _ _ hc
    refine ⟨st, ?_, ?_, hc⟩
    · simp [chunkOffsets, chunkLoop]
    · simp [runL]
  | cons g gs2 ih =>
    intro o idx st hv hgne hdrop hsegs hc
    have hflat3 : (g :: gs2).flatten.flatten = g.flatten ++ gs2.flatten.flatten := by simp
    have hsegs2 : segs (data.drop o) = g ++ gs2.flatten := by
      rw [hsegs]
      simp
    have hrest : segs (gs2.flatten.flatten) = gs2.flatten := segs_suffix_restore hsegs2
    have hdrop2 : data.drop o = g.flatten ++ gs2.flatten.flatten := by
      rw [hdrop, hflat3]
    have hsegs3 : segs (g.flatten ++ gs2.flatten.flatten) = g ++ segs gs2.flatten.flatten := by
      rw [← hdrop2, hsegs2, hrest]
    have hgelne : ∀ x ∈ g, x ≠ [] := by
      intro x hx
      exact mem_segs_ne_nil (data.drop o) x (hsegs2 ▸ List.mem_append_left _ hx)
    have hgflatne : g.flatten ≠ [] := by
      have hg : g ≠ [] := hgne g (List.mem_cons_self g gs2)
      cases hgl : g with
      | nil => exact absurd hgl hg
      | cons a g3 =>
        have ha : a ≠ [] := hgelne a (by rw [hgl]; exact List.mem_cons_self a g3)
        simp only [List.flatten_cons]
        exact fun hcon => ha (List.append_eq_nil.mp hcon).1
    have ho : o < data.length := by
      by_contra hcon
      have : data.drop o = [] := List.drop_eq_nil_iff.mpr (by omega)
      rw [this] at hdrop2
      exact hgflatne (List.append_eq_nil.mp hdrop2.symm).1
    have hproc := process_chunk_aligned st (le_of_lt ho) hdrop2 hsegs3
      (fun x hx => hv g (List.mem_cons_self g gs2) x hx)
    have hco : chunkOffsets o ((g :: gs2).map lenSum) =
        Chunk.mk o (o + lenSum g) :: chunkOffsets (o + lenSum g) (gs2.map lenSum) := by
      simp [chunkOffsets]
    rw [hco]
    simp only [chunkLoop, hproc]
    set st1 := g.foldl procLine st with hst1
    set st3 := if (idx + 1) % 50 = 0 then sinkFlush st1 else st1 with hst3
    have hproj3 : projL st3 = runL (projL st) g := by
      rw [hst3]
      split
      · rw [projL_sinkFlush, hst1, projL_foldl]
      · rw [hst1, projL_foldl]
    have hcont1 : content st1 = st1.written.flatten := content_inv_foldl g st hc
    have hcont3 : content st3 = st3.written.flatten := by
      rw [hst3]
      split
      · rw [content_sinkFlush]
        exact hcont1
      · exact hcont1
    have hdropnext : data.drop (o + lenSum g) = gs2.flatten.flatten := by
      have h1 : data.drop (o + lenSum g) = (data.drop o).drop (lenSum g) := by
        rw [List.drop_drop]
      rw [h1, hdrop2, lenSum_eq_length_flatten]
      exact List.drop_left g.flatten gs2.flatten.flatten
    have hsegsnext : segs (data.drop (o + lenSum g)) = gs2.flatten := by
      rw [hdropnext]
      exact hrest
    obtain ⟨st2, hrun, hp2, hc2⟩ := ih (o + lenSum g) (idx + 1) st3
      (fun g2 hg2 => hv g2 (List.mem_cons_of_mem g hg2))
      (fun g2 hg2 => hgne g2 (List.mem_cons_of_mem g hg2))
      hdropnext hsegsnext hcont3
    refine ⟨st2, hrun, ?_, hc2⟩
    rw [hp2, hproj3]
    simp only [List.flatten_cons, runL, List.foldl_append]

/-- Simulation: on decodable input a full run succeeds and its observable
outcome is the pure per-line fold over the lines of the input; the sink is
fully flushed and the output file holds exactly the logged writes. -/
theorem run_valid (data : List Byte) (target : Nat)
    (hv : ∀ x ∈ segs data, validUtf8 x = true) :
    ∃ st, deduplicator_process data target = Except.ok st ∧
      projL st = runL initL (segs data) ∧ st.buf = [] ∧
      st.flushed = (runL initL (segs data)).written.flatten := by
  by_cases hne : data = []
  · subst hne
    have hscan : scanLoop target 1 [] 0 0 0 [] = ([], 0, 0, 0) := by simp [scanLoop]
    have hfcb : find_chunk_boundaries [] target = [⟨0, 0⟩] := by
      simp [find_chunk_boundaries, hscan, scanFin]
    have hproc : process_chunk_stream [] ⟨0, 0⟩ initState = (Except.ok (), initState) := by
      simp [process_chunk_stream, procLoop]
    have hloop : chunkLoop [] [⟨0, 0⟩] 0 initState = Except.ok initState := by
      simp [chunkLoop, hproc]
    refine ⟨initState, ?_, rfl, rfl, rfl⟩
    simp only [deduplicator_process, hfcb]
    have hany0 : (([⟨0, 0⟩] : List Chunk).any
        fun c => ([] : List Byte).length < c.start_offset) = false := by simp
    rw [hany0]
    simp only [Bool.false_eq_true, if_false]
    rw [hloop]
    rfl
  · have hchunks := find_chunk_boundaries_valid target hv hne
    have hslne : segs data ≠ [] := fun hc => hne ((segs_eq_nil_iff data).mp hc)
    have hflat_gs : (groupsOf data target).flatten = segs data := by
      simpa using groupSegsLoop_flatten target (segs data) [] 0 (mem_segs_ne_nil data)
        rfl (fun _ => rfl)
    have hsum : ((groupsOf data target).map lenSum).sum = data.length := by
      rw [sum_map_lenSum, hflat_gs, lenSum_eq_length_flatten, flatten_segs]
    have hval : ∀ c ∈ find_chunk_boundaries data target, c.start_offset ≤ data.length := by
      intro c hc
      rw [hchunks] at hc
      have := chunkOffsets_mem_bounds ((groupsOf data target).map lenSum) 0 c hc
      omega
    have hany : (find_chunk_boundaries data target).any
        (fun c => data.length < c.start_offset) = false := by
      rw [List.any_eq_false]
      intro c hc
      simp only [decide_eq_true_eq, not_lt]
      exact hval c hc
    obtain ⟨st2, hrun, hp2, hc2⟩ := chunkLoop_groups data (groupsOf data target) 0 0 initState
      (by
        intro g hg x hx
        exact hv x (hflat_gs ▸ List.mem_flatten.mpr ⟨g, hg, hx⟩))
      (groupSegsLoop_groups_ne_nil target (segs data) [] 0 rfl)
      (by rw [List.drop_zero, hflat_gs, flatten_segs])
      (by rw [List.drop_zero, hflat_gs])
      rfl
    refine ⟨sinkFlush st2, ?_, ?_, rfl, ?_⟩
    · simp only [deduplicator_process]
      rw [hany]
      simp only [Bool.false_eq_true, if_false]
      rw [hchunks, hrun]
    · rw [projL_sinkFlush, hp2, hflat_gs]
      rfl
    · have h1 : (sinkFlush st2).flushed = content st2 := rfl
      rw [h1, hc2]
      have h2 : st2.written = (projL st2).written := rfl
      rw [h2, hp2, hflat_gs]
      rfl

/-! Invariants of the pure per-line fold. -/

theorem hashOf_eq_of_lower_eq {a b : List Byte} (h : toLowerBytes a = toLowerBytes b) :
    hashOf a = hashOf b := by
  simp [hashOf, hash_string, h]

theorem runL_inv (ls : List (List Byte)) :
    ∀ (p : List (List Byte)) (st : LState),
    st.seen = st.written.map hashOf →
    st.seen.Nodup →
    (∀ w ∈ st.written, p.find? (fun s => toLowerBytes s == toLowerBytes w) = some w) →
    (∀ l ∈ p, hashOf l ∈ st.seen) →
    List.Sublist st.written p →
    (runL st ls).seen = (runL st ls).written.map hashOf ∧
    (runL st ls).seen.Nodup ∧
    (∀ w ∈ (runL st ls).written,
      (p ++ ls).find? (fun s => toLowerBytes s == toLowerBytes w) = some w) ∧
    (∀ l ∈ p ++ ls, hashOf l ∈ (runL st ls).seen) ∧
    List.Sublist (runL st ls).written (p ++ ls) := by
  induction ls with
  | nil =>
    intro p st h1 h2 h3 h4 h5
    simpa [runL] using ⟨h1, h2, h3, h4, h5⟩
  | cons l ls2 ih =>
    intro p st h1 h2 h3 h4 h5
    have hstep : runL st (l :: ls2) = runL (lineStep st l) ls2 := rfl
    rw [hstep]
    have hassoc : p ++ l :: ls2 = (p ++ [l]) ++ ls2 := by simp
    rw [hassoc]
    by_cases hm : hashOf l ∈ st.seen
    · have hls : lineStep st l =
          { st with lines_processed := st.lines_processed + 1, duplicates_removed := st.duplicates_removed + 1 } := by
        simp only [lineStep]
        rw [if_pos hm]
      refine ih (p ++ [l]) (lineStep st l) ?_ ?_ ?_ ?_ ?_
      · rw [hls]; exact h1
      · rw [hls]; exact h2
      · intro w hw
        rw [hls] at hw
        rw [List.find?_append, h3 w hw]
        rfl
      · intro x hx
        rw [hls]
        rcases List.mem_append.mp hx with h | h
        · exact h4 x h
        · simp at h
          rw [h]
          exact hm
      · rw [hls]
        exact h5.trans (List.sublist_append_left p [l])
    · have hls : lineStep st l =
          { st with lines_processed := st.lines_processed + 1, seen := st.seen ++ [hashOf l], written := st.written ++ [l] } := by
        simp only [lineStep]
        rw [if_neg hm]
      have hfindp : p.find? (fun s => toLowerBytes s == toLowerBytes l) = none := by
        rw [List.find?_eq_none]
        intro x hx hpred
        apply hm
        have hlow : toLowerBytes x = toLowerBytes l := by
          simpa using hpred
        rw [← hashOf_eq_of_lower_eq hlow]
        exact h4 x hx
      refine ih (p ++ [l]) (lineStep st l) ?_ ?_ ?_ ?_ ?_
      · rw [hls]
        simp [h1]
      · rw [hls]
        simp only [List.nodup_append]
        refine ⟨h2, List.nodup_singleton _, ?_⟩
        intro a ha hb
        simp at hb
        rw [hb] at ha
        exact hm ha
      · intro w hw
        rw [hls] at hw
        simp only at hw
        rcases List.mem_append.mp hw with h | h
        · rw [List.find?_append, h3 w h]
          rfl
        · simp at h
          rw [h]
          rw [List.find?_append, hfindp]
          simp [List.find?]
      · intro x hx
        rw [hls]
        simp only
        rcases List.mem_append.mp hx with h | h
        · exact List.mem_append_left _ (h4 x h)
        · simp at h
          rw [h]
          exact List.mem_append_right _ (by simp)
      · rw [hls]
        simp only
        exact h5.append (List.Sublist.refl [l])

theorem runL_main (ls : List (List Byte)) :
    (runL initL ls).seen = (runL initL ls).written.map hashOf ∧
    (runL initL ls).seen.Nodup ∧
    (∀ w ∈ (runL initL ls).written,
      ls.find? (fun s => toLowerBytes s == toLowerBytes w) = some w) ∧
    (∀ l ∈ ls, hashOf l ∈ (runL initL ls).seen) ∧
    List.Sublist (runL initL ls).written ls := by
  have h := runL_inv ls [] initL rfl List.nodup_nil (by simp [initL]) (by simp)
    (by simp [initL])
  simpa using h

theorem runL_fresh :
    ∀ (ls : List (List Byte)) (st : LState),
    (∀ l ∈ ls, hashOf l ∉ st.seen) → (ls.map hashOf).Nodup →
    (runL st ls).written = st.written ++ ls ∧
    (runL st ls).duplicates_removed = st.duplicates_removed := by
  intro ls
  induction ls with
  | nil =>
    intro st _ _
    simp [runL]
  | cons l ls2 ih =>
    intro st hfresh hnd
    have hm : hashOf l ∉ st.seen := hfresh l (List.mem_cons_self l ls2)
    have hls : lineStep st l =
        { st with lines_processed := st.lines_processed + 1, seen := st.seen ++ [hashOf l], written := st.written ++ [l] } := by
      simp only [lineStep]
      rw [if_neg hm]
    have hstep : runL st (l :: ls2) = runL (lineStep st l) ls2 := rfl
    rw [hstep]
    simp only [List.map_cons, List.nodup_cons] at hnd
    have hrec := ih (lineStep st l) ?_ hnd.2
    · rw [hls] at hrec
      rw [hls, hrec.1, hrec.2]
      simp
    · intro x hx
      rw [hls]
      simp only [List.mem_append]
      rintro (h | h)
      · exact hfresh x (List.mem_cons_of_mem l hx) h
      · simp at h
        exact hnd.1 (h ▸ List.mem_map_of_mem hashOf hx)

/-! Counting and sink-content invariants of the real pipeline, for arbitrary
input (decodable or not). -/

theorem count_lineStep (st : LState) (l : List Byte) :
    (lineStep st l).lines_processed = st.lines_processed + 1 ∧
    (lineStep st l).written.length + (lineStep st l).duplicates_removed
      = st.written.length + st.duplicates_removed + 1 := by
  simp only [lineStep]
  split
  · simp
    omega
  · simp
    omega

theorem count_procLine (st : PState) (l : List Byte) :
    (procLine st l).lines_processed = st.lines_processed + 1 ∧
    (procLine st l).written.length + (procLine st l).duplicates_removed
      = st.written.length + st.duplicates_removed + 1 := by
  have hc := count_lineStep (projL st) l
  rw [← projL_procLine st l] at hc
  simpa [projL] using hc

theorem count_procLoop :
    ∀ (fuel : Nat) (rem : List Byte) (endOff off : Nat) (st : PState),
    (procLoop fuel rem endOff off st).2.written.length
      + (procLoop fuel rem endOff off st).2.duplicates_removed
      + st.lines_processed
    = st.written.length + st.duplicates_removed
      + (procLoop fuel rem endOff off st).2.lines_processed := by
  intro fuel
  induction fuel with
  | zero =>
    intro rem endOff off st
    simp [procLoop]
  | succ f ih =>
    intro rem endOff off st
    simp only [procLoop]
    split
    · simp
    · split
      · simp
      · split
        · simp
        · split
          · exact ih (dropLine rem) endOff (off + (takeLine rem).length) st
          · have h1 := ih (dropLine rem) endOff (off + (takeLine rem).length)
              (procLine st (takeLine rem))
            have h2 := count_procLine st (takeLine rem)
            omega

theorem content_procLoop :
    ∀ (fuel : Nat) (rem : List Byte) (endOff off : Nat) (st : PState),
    content st = st.written.flatten →
    content (procLoop fuel rem endOff off st).2
      = (procLoop fuel rem endOff off st).2.written.flatten := by
  intro fuel
  induction fuel with
  | zero =>
    intro rem endOff off st h
    simpa [procLoop] using h
  | succ f ih =>
    intro rem endOff off st h
    simp only [procLoop]
    split
    · simpa using h
    · split
      · simpa using h
      · split
        · simpa using h
        · split
          · exact ih (dropLine rem) endOff (off + (takeLine rem).length) st h
          · exact ih (dropLine rem) endOff (off + (takeLine rem).length)
              (procLine st (takeLine rem)) (content_inv_procLine (takeLine rem) h)

theorem process_chunk_inv (data : List Byte) (c : Chunk) (st : PState) :
    ((process_chunk_stream data c st).2.written.length
      + (process_chunk_stream data c st).2.duplicates_removed + st.lines_processed
      = st.written.length + st.duplicates_removed
        + (process_chunk_stream data c st).2.lines_processed) ∧
    (content st = st.written.flatten →
      content (process_chunk_stream data c st).2
        = (process_chunk_stream data c st).2.written.flatten) := by
  simp only [process_chunk_stream]
  split
  · exact ⟨by simp, fun h => h⟩
  · exact ⟨count_procLoop (data.length + 1) (data.drop c.start_offset) c.end_offset
      c.start_offset st,
      content_procLoop (data.length + 1) (data.drop c.start_offset) c.end_offset
      c.start_offset st⟩

theorem chunkLoop_ok_inv (data : List Byte) :
    ∀ (cs : List Chunk) (idx : Nat) (st st2 : PState),
    chunkLoop data cs idx st = Except.ok st2 →
    (st2.written.length + st2.duplicates_removed + st.lines_processed
      = st.written.length + st.duplicates_removed + st2.lines_processed) ∧
    (content st = st.written.flatten → content st2 = st2.written.flatten) := by
  intro cs
  induction cs with
  | nil =>
    intro idx st st2 h
    simp only [chunkLoop, Except.ok.injEq] at h
    subst h
    exact ⟨by omega, fun h => h⟩
  | cons c cs2 ih =>
    intro idx st st2 h
    simp only [chunkLoop] at h
    rcases hp : process_chunk_stream data c st with ⟨r, st1⟩
    rw [hp] at h
    cases r with
    | error e => simp at h
    | ok u =>
      simp only at h
      have hinv := process_chunk_inv data c st
      rw [hp] at hinv
      simp only at hinv
      have hflushinv :
          ∀ st3 : PState, (if (idx + 1) % 50 = 0 then sinkFlush st3 else st3).written = st3.written ∧
            (if (idx + 1) % 50 = 0 then sinkFlush st3 else st3).duplicates_removed
              = st3.duplicates_removed ∧
            (if (idx + 1) % 50 = 0 then sinkFlush st3 else st3).lines_processed
              = st3.lines_processed := by
        intro st3
        split <;> exact ⟨rfl, rfl, rfl⟩
      have hrec := ih (idx + 1) (if (idx + 1) % 50 = 0 then sinkFlush st1 else st1) st2 h
      obtain ⟨hw1, hd1, hl1⟩ := hflushinv st1
      refine ⟨?_, fun hc => ?_⟩
      · have := hrec.1
        rw [hw1, hd1, hl1] at this
        omega
      · apply hrec.2
        have hc1 : content st1 = st1.written.flatten := hinv.2 hc
        split
        · rw [content_sinkFlush]
          exact hc1
        · exact hc1

/-- Every successful run ends with an empty sink buffer, the output file
holding exactly the logged writes, and the counters balancing the writes. -/
theorem run_ok_inv (data : List Byte) (target : Nat) (st : PState)
    (h : deduplicator_process data target = Except.ok st) :
    st.buf = [] ∧ st.flushed = st.written.flatten ∧
    st.written.length + st.duplicates_removed = st.lines_processed := by
  simp only [deduplicator_process] at h
  split at h
  · simp at h
  · rcases hcl : chunkLoop data (find_chunk_boundaries data target) 0 initState with e | st3
    · rw [hcl] at h
      simp at h
    · rw [hcl] at h
      simp only [Except.ok.injEq] at h
      subst h
      have hinv := chunkLoop_ok_inv data (find_chunk_boundaries data target) 0 initState st3 hcl
      have hcount : st3.written.length + st3.duplicates_removed = st3.lines_processed := by
        have := hinv.1
        simp [initState] at this
        omega
      have hcont : content st3 = st3.written.flatten := hinv.2 rfl
      refine ⟨rfl, ?_, hcount⟩
      have h1 : (sinkFlush st3).flushed = content st3 := rfl
      rw [h1, hcont]
      rfl

/-! Bound on chunk sizes: the scanner closes a chunk at the first line end at
or past the target, so a chunk exceeds the target by less than one line. -/

theorem le_foldr_max (l : List Nat) : ∀ x ∈ l, x ≤ l.foldr Nat.max 0 := by
  induction l with
  | nil => simp
  | cons a l2 ih =>
    intro x hx
    rcases List.mem_cons.mp hx with h | h
    · rw [h]
      exact Nat.le_max_left a (l2.foldr Nat.max 0)
    · exact le_trans (ih x h) (Nat.le_max_right a (l2.foldr Nat.max 0))

theorem length_le_maxSegLen {data : List Byte} {s : List Byte} (h : s ∈ segs data) :
    s.length ≤ maxSegLen data :=
  le_foldr_max ((segs data).map List.length) s.length (List.mem_map_of_mem List.length h)

theorem segs_flatten_drop (data : List Byte) (k : Nat) :
    segs (((segs data).drop k).flatten) = (segs data).drop k := by
  apply segs_suffix_restore (D := data) (A := (segs data).take k)
  rw [List.take_append_drop]

theorem drop_segs_succ (data : List Byte) (k : Nat) {s : List Byte} {ss : List (List Byte)}
    (h : (segs data).drop k = s :: ss) : (segs data).drop (k + 1) = ss := by
  have h2 : (segs data).drop (k + 1) = ((segs data).drop k).drop 1 := by
    rw [List.drop_drop]
  rw [h2, h]
  rfl

theorem recoveryScan_bound : ∀ (l : List Byte) (k : Nat),
    (recoveryScan l k).1 ≤ (takeLine l).length := by
  intro l
  induction l with
  | nil => intro k; simp [recoveryScan, takeLine]
  | cons b r ih =>
    intro k
    simp only [recoveryScan, takeLine]
    by_cases hb : b = 10
    · simp [hb]
    · rw [if_neg hb, if_neg hb]
      split
      · simp
      · have := ih (k + 1)
        simp
        omega

theorem recoveryScan_found : ∀ (l : List Byte) (k : Nat),
    (recoveryScan l k).2.1 = true →
    (recoveryScan l k).1 = (takeLine l).length ∧ (recoveryScan l k).2.2 = dropLine l := by
  intro l
  induction l with
  | nil => intro k h; simp [recoveryScan] at h
  | cons b r ih =>
    intro k h
    by_cases hb : b = 10
    · subst hb
      simp [recoveryScan, takeLine, dropLine]
    · by_cases hcap : 10000 < k + 1
      · rw [show recoveryScan (b :: r) k = (1, false, r) from by
          simp [recoveryScan, hb, hcap]] at h
        simp at h
      · have hrs : recoveryScan (b :: r) k = ((recoveryScan r (k + 1)).1 + 1,
            (recoveryScan r (k + 1)).2.1, (recoveryScan r (k + 1)).2.2) := by
          simp [recoveryScan, hb, hcap]
        rw [hrs] at h ⊢
        simp only at h ⊢
        have hih := ih (k + 1) h
        refine ⟨?_, ?_⟩
        · rw [takeLine, if_neg hb]
          simp [hih.1]
        · rw [dropLine, if_neg hb]
          exact hih.2

theorem scanLoop_bound (data : List Byte) (target : Nat) (ht : 0 < target) :
    ∀ (fuel k start size : Nat) (chunks : List Chunk),
    size < target →
    (∀ c ∈ chunks, c.end_offset - c.start_offset < target + maxSegLen data) →
    (chunks = [] → start = 0) →
    (∀ c ∈ (scanLoop target fuel (((segs data).drop k).flatten)
        (start + size) start size chunks).1,
      c.end_offset - c.start_offset < target + maxSegLen data) ∧
    (scanLoop target fuel (((segs data).drop k).flatten)
        (start + size) start size chunks).2.1
      = (scanLoop target fuel (((segs data).drop k).flatten)
        (start + size) start size chunks).2.2.1
      + (scanLoop target fuel (((segs data).drop k).flatten)
        (start + size) start size chunks).2.2.2 ∧
    (scanLoop target fuel (((segs data).drop k).flatten)
        (start + size) start size chunks).2.2.2 < target + maxSegLen data ∧
    ((scanLoop target fuel (((segs data).drop k).flatten)
        (start + size) start size chunks).1 = []
      → (scanLoop target fuel (((segs data).drop k).flatten)
        (start + size) start size chunks).2.2.1 = 0) := by
  intro fuel
  induction fuel with
  | zero =>
    intro k start size chunks hsz hP hst
    refine ⟨hP, rfl, ?_, hst⟩
    show size < target + maxSegLen data
    omega
  | succ f ih =>
    intro k start size chunks hsz hP hst
    by_cases hrem : ((segs data).drop k).flatten = []
    · have hstep : scanLoop target (f + 1) (((segs data).drop k).flatten)
          (start + size) start size chunks = (chunks, start + size, start, size) := by
        rw [hrem]
        simp [scanLoop]
      rw [hstep]
      refine ⟨hP, rfl, ?_, hst⟩
      show size < target + maxSegLen data
      omega
    · rcases hdk : (segs data).drop k with _ | ⟨s, ss⟩
      · rw [hdk] at hrem
        simp at hrem
      · rw [← hdk]
        have hsrem : segs (((segs data).drop k).flatten) = s :: ss := by
          rw [segs_flatten_drop, hdk]
        have htake : takeLine (((segs data).drop k).flatten) = s := takeLine_segs hsrem
        have hdropl : dropLine (((segs data).drop k).flatten)
            = ((segs data).drop (k + 1)).flatten := by
          rw [dropLine_flatten hsrem, ← drop_segs_succ data k hdk]
        have hsmem : s ∈ segs data := by
          have hmem : s ∈ (segs data).drop k := by
            rw [hdk]
            exact List.mem_cons_self s ss
          exact List.mem_of_mem_drop hmem
        have hsmax : s.length ≤ maxSegLen data := length_le_maxSegLen hsmem
        have hstep : scanLoop target (f + 1) (((segs data).drop k).flatten)
            (start + size) start size chunks =
            (if validUtf8 s then
              (if target ≤ size + s.length then
                scanLoop target f (((segs data).drop (k + 1)).flatten)
                  (start + size + s.length) (start + size + s.length) 0
                  (chunks ++ [⟨start, start + size + s.length⟩])
              else
                scanLoop target f (((segs data).drop (k + 1)).flatten)
                  (start + size + s.length) start (size + s.length) chunks)
            else
              (if (recoveryScan (((segs data).drop (k + 1)).flatten) 0).2.1 then
                (if target ≤ size + (recoveryScan (((segs data).drop (k + 1)).flatten) 0).1 then
                  scanLoop target f (recoveryScan (((segs data).drop (k + 1)).flatten) 0).2.2
                    (start + size + (recoveryScan (((segs data).drop (k + 1)).flatten) 0).1)
                    (start + size + (recoveryScan (((segs data).drop (k + 1)).flatten) 0).1) 0
                    (chunks ++ [⟨start, start + size
                      + (recoveryScan (((segs data).drop (k + 1)).flatten) 0).1⟩])
                else
                  scanLoop target f (recoveryScan (((segs data).drop (k + 1)).flatten) 0).2.2
                    (start + size + (recoveryScan (((segs data).drop (k + 1)).flatten) 0).1)
                    start (size + (recoveryScan (((segs data).drop (k + 1)).flatten) 0).1)
                    chunks)
              else (chunks, start + size
                + (recoveryScan (((segs data).drop (k + 1)).flatten) 0).1, start,
                size + (recoveryScan (((segs data).drop (k + 1)).flatten) 0).1))) := by
          simp only [scanLoop]
          rw [if_neg hrem, htake, hdropl]
        rw [hstep]
        by_cases hvs : validUtf8 s
        · rw [if_pos hvs]
          by_cases hcond : target ≤ size + s.length
          · rw [if_pos hcond]
            have hrec := ih (k + 1) (start + size + s.length) 0
              (chunks ++ [⟨start, start + size + s.length⟩]) ht ?_ (by simp)
            · rw [Nat.add_zero] at hrec
              exact hrec
            · intro c hc
              rcases List.mem_append.mp hc with h | h
              · exact hP c h
              · simp at h
                rw [h]
                simp
                omega
          · rw [if_neg hcond]
            have hrec := ih (k + 1) start (size + s.length) chunks (by omega) hP hst
            rw [← Nat.add_assoc] at hrec
            exact hrec
        · rw [if_neg hvs]
          have htb : (recoveryScan (((segs data).drop (k + 1)).flatten) 0).1
              ≤ maxSegLen data := by
            rcases hdk2 : (segs data).drop (k + 1) with _ | ⟨s2, ss2⟩
            · simp [recoveryScan]
            · rw [← hdk2]
              have hsrem2 : segs (((segs data).drop (k + 1)).flatten) = s2 :: ss2 := by
                rw [segs_flatten_drop, hdk2]
              have htake2 : takeLine (((segs data).drop (k + 1)).flatten) = s2 :=
                takeLine_segs hsrem2
              have hs2mem : s2 ∈ segs data := by
                have hmem2 : s2 ∈ (segs data).drop (k + 1) := by
                  rw [hdk2]
                  exact List.mem_cons_self s2 ss2
                exact List.mem_of_mem_drop hmem2
              calc (recoveryScan (((segs data).drop (k + 1)).flatten) 0).1
                  ≤ (takeLine (((segs data).drop (k + 1)).flatten)).length :=
                    recoveryScan_bound _ 0
                _ = s2.length := by rw [htake2]
                _ ≤ maxSegLen data := length_le_maxSegLen hs2mem
          by_cases htf : (recoveryScan (((segs data).drop (k + 1)).flatten) 0).2.1 = true
          case neg =>
            simp only [Bool.not_eq_true] at htf
            rw [htf]
            simp only [Bool.false_eq_true, if_false]
            exact ⟨hP, by omega, by omega, hst⟩
          case pos =>
            rw [htf]
            rw [if_pos rfl]
            have hrest : (recoveryScan (((segs data).drop (k + 1)).flatten) 0).2.2
                = ((segs data).drop (k + 2)).flatten := by
              rcases hdk2 : (segs data).drop (k + 1) with _ | ⟨s2, ss2⟩
              · rw [hdk2] at htf
                simp [recoveryScan] at htf
              · rw [← hdk2]
                have hsrem2 : segs (((segs data).drop (k + 1)).flatten) = s2 :: ss2 := by
                  rw [segs_flatten_drop, hdk2]
                have hfound := recoveryScan_found (((segs data).drop (k + 1)).flatten) 0 htf
                rw [hfound.2, dropLine_flatten hsrem2, ← drop_segs_succ data (k + 1) hdk2]
            rw [hrest]
            by_cases hcond : target ≤ size
                + (recoveryScan (((segs data).drop (k + 1)).flatten) 0).1
            · rw [if_pos hcond]
              have hrec := ih (k + 2)
                (start + size + (recoveryScan (((segs data).drop (k + 1)).flatten) 0).1) 0
                (chunks ++ [⟨start, start + size
                  + (recoveryScan (((segs data).drop (k + 1)).flatten) 0).1⟩]) ht ?_ (by simp)
              · rw [Nat.add_zero] at hrec
                exact hrec
              · intro c hc
                rcases List.mem_append.mp hc with h | h
                · exact hP c h
                · simp at h
                  rw [h]
                  simp
                  omega
            · rw [if_neg hcond]
              have hrec := ih (k + 2) start
                (size + (recoveryScan (((segs data).drop (k + 1)).flatten) 0).1) chunks
                (by omega) hP hst
              rw [← Nat.add_assoc] at hrec
              exact hrec

/-- Amended chunk-size law: every chunk is smaller than the target plus the
longest line of the input. -/
theorem find_chunk_boundaries_bound (data : List Byte) (target : Nat) (ht : 0 < target) :
    ∀ c ∈ find_chunk_boundaries data target,
      c.end_offset - c.start_offset < target + maxSegLen data := by
  have h := scanLoop_bound data target ht (data.length + 1) 0 0 0 [] ht (by simp)
    (fun _ => rfl)
  have hdata0 : ((segs data).drop 0).flatten = data := by
    rw [List.drop_zero, flatten_segs]
  rw [hdata0] at h
  simp only [Nat.add_zero] at h
  obtain ⟨hP, hoff, hsz, hnil⟩ := h
  intro c hc
  simp only [find_chunk_boundaries, scanFin] at hc
  by_cases hpos : 0 < (scanLoop target (data.length + 1) data 0 0 0 []).2.2.2
  · rw [if_pos hpos] at hc
    rw [if_neg (by simp)] at hc
    rcases List.mem_append.mp hc with h1 | h1
    · exact hP c h1
    · simp at h1
      rw [h1]
      simp only
      omega
  · rw [if_neg hpos] at hc
    by_cases hnl : (scanLoop target (data.length + 1) data 0 0 0 []).1 = []
    · rw [if_pos hnl] at hc
      simp at hc
      rw [hc]
      simp only
      have h0 := hnil hnl
      omega
    · rw [if_neg hnl] at hc
      exact hP c hc

/-! Alignment of chunk boundaries on decodable input. -/

theorem chunkOffsets_aligned (data : List Byte) :
    ∀ (gs : List (List (List Byte))) (o : Nat),
    data.drop o = gs.flatten.flatten →
    segs (data.drop o) = gs.flatten →
    (∀ g ∈ gs, g ≠ []) →
    ∀ c ∈ chunkOffsets o (gs.map lenSum),
      c.end_offset = data.length ∨
      (0 < c.end_offset ∧ c.end_offset ≤ data.length ∧
        data[c.end_offset - 1]? = some 10) := by
  intro gs
  induction gs with
  | nil =>
    intro o _ _ _ c hc
    simp [chunkOffsets] at hc
  | cons g gs2 ih =>
    intro o hdrop hsegs hgne c hc
    have hflat3 : (g :: gs2).flatten.flatten = g.flatten ++ gs2.flatten.flatten := by simp
    have hsegs2 : segs (data.drop o) = g ++ gs2.flatten := by
      rw [hsegs]
      simp
    have hrest : segs (gs2.flatten.flatten) = gs2.flatten := segs_suffix_restore hsegs2
    have hdrop2 : data.drop o = g.flatten ++ gs2.flatten.flatten := by
      rw [hdrop, hflat3]
    have hgelne : ∀ x ∈ g, x ≠ [] := by
      intro x hx
      exact mem_segs_ne_nil (data.drop o) x (hsegs2 ▸ List.mem_append_left _ hx)
    have hg : g ≠ [] := hgne g (List.mem_cons_self g gs2)
    have hgflatne : g.flatten ≠ [] := by
      cases hgl : g with
      | nil => exact absurd hgl hg
      | cons a g3 =>
        have ha : a ≠ [] := hgelne a (by rw [hgl]; exact List.mem_cons_self a g3)
        simp only [List.flatten_cons]
        exact fun hcon => ha (List.append_eq_nil.mp hcon).1
    have hgfpos : 0 < g.flatten.length := List.length_pos.mpr hgflatne
    have ho : o < data.length := by
      by_contra hcon
      have hdn : data.drop o = [] := List.drop_eq_nil_iff.mpr (by omega)
      rw [hdn] at hdrop2
      exact hgflatne (List.append_eq_nil.mp hdrop2.symm).1
    have hlendrop : (data.drop o).length = data.length - o := List.length_drop o data
    have hco : chunkOffsets o ((g :: gs2).map lenSum) =
        Chunk.mk o (o + lenSum g) :: chunkOffsets (o + lenSum g) (gs2.map lenSum) := by
      simp [chunkOffsets]
    rw [hco] at hc
    rcases List.mem_cons.mp hc with h1 | h1
    · rw [h1]
      simp only
      rw [lenSum_eq_length_flatten]
      by_cases hT : gs2.flatten.flatten = []
      · left
        rw [hT] at hdrop2
        simp at hdrop2
        have : (data.drop o).length = g.flatten.length := by rw [hdrop2]
        omega
      · right
        have hTlen : 0 < gs2.flatten.flatten.length := List.length_pos.mpr hT
        have hlen2 : (data.drop o).length = g.flatten.length + gs2.flatten.flatten.length := by
          rw [hdrop2]
          simp
        refine ⟨by omega, by omega, ?_⟩
        have hfne : gs2.flatten ≠ [] := by
          intro hcon
          rw [hcon] at hT
          exact hT rfl
        obtain ⟨D, L, hDL⟩ : ∃ D L, g = D ++ [L] :=
          ⟨g.dropLast, g.getLast hg, (List.dropLast_append_getLast hg).symm⟩
        have hdecomp : segs (data.drop o) = D ++ (L :: gs2.flatten) := by
          rw [hsegs2, hDL]
          simp
        have hx10 : L.getLast? = some 10 :=
          termwf_segs (data.drop o) D L gs2.flatten hdecomp hfne
        have hgf10 : g.flatten.getLast? = some 10 := by
          have hflatsplit : g.flatten = D.flatten ++ L := by
            rw [hDL]
            simp
          rw [hflatsplit, List.getLast?_append, hx10]
          rfl
        have hidx : o + g.flatten.length - 1 = o + (g.flatten.length - 1) := by omega
        rw [hidx]
        rw [← List.getElem?_drop data o (g.flatten.length - 1)]
        rw [hdrop2]
        rw [List.getElem?_append_left (by omega)]
        rw [← List.getLast?_eq_getElem?]
        exact hgf10
    · have hdropnext : data.drop (o + lenSum g) = gs2.flatten.flatten := by
        have hdd : data.drop (o + lenSum g) = (data.drop o).drop (lenSum g) := by
          rw [List.drop_drop]
        rw [hdd, hdrop2, lenSum_eq_length_flatten]
        exact List.drop_left g.flatten gs2.flatten.flatten
      have hsegsnext : segs (data.drop (o + lenSum g)) = gs2.flatten := by
        rw [hdropnext]
        exact hrest
      exact ih (o + lenSum g) hdropnext hsegsnext
        (fun g2 hg2 => hgne g2 (List.mem_cons_of_mem g hg2)) c h1

theorem find_chunk_boundaries_nil (target : Nat) :
    find_chunk_boundaries [] target = [⟨0, 0⟩] := by
  have hscan : scanLoop target 1 [] 0 0 0 [] = ([], 0, 0, 0) := by simp [scanLoop]
  simp [find_chunk_boundaries, hscan, scanFin]

/-- Amended boundary law: on decodable input every chunk ends right after a
terminator or at the end of the file. -/
theorem find_chunk_boundaries_aligned (data : List Byte) (target : Nat)
    (hv : ∀ x ∈ segs data, validUtf8 x = true) :
    ∀ c ∈ find_chunk_boundaries data target,
      c.end_offset = data.length ∨
      (0 < c.end_offset ∧ c.end_offset ≤ data.length ∧
        data[c.end_offset - 1]? = some 10) := by
  by_cases hne : data = []
  · subst hne
    rw [find_chunk_boundaries_nil]
    intro c hc
    simp at hc
    rw [hc]
    left
    rfl
  · rw [find_chunk_boundaries_valid target hv hne]
    have hflat_gs : (groupsOf data target).flatten = segs data := by
      simpa using groupSegsLoop_flatten target (segs data) [] 0 (mem_segs_ne_nil data)
        rfl (fun _ => rfl)
    exact chunkOffsets_aligned data (groupsOf data target) 0
      (by rw [List.drop_zero, hflat_gs, flatten_segs])
      (by rw [List.drop_zero, hflat_gs])
      (groupSegsLoop_groups_ne_nil target (segs data) [] 0 rfl)

/-! Structure of the scan on inputs that do not fully decode.  A successful
run can only arise when the undecodable part of the file is its very last
line: the lemmas below compute the scan up to the first invalid line, show
that an invalid last line adds nothing, and show that an invalid line
followed by further content always puts one chunk end past the decodable
part, which makes processing fail there. -/

theorem length_le_lenSum {sl : List (List Byte)} (h : ∀ x ∈ sl, x ≠ []) :
    sl.length ≤ lenSum sl := by
  induction sl with
  | nil => simp [lenSum]
  | cons x rest ih =>
    have hx : 0 < x.length := List.length_pos.mpr (h x (List.mem_cons_self x rest))
    have := ih (fun y hy => h y (List.mem_cons_of_mem x hy))
    rw [lenSum_cons]
    simp only [List.length_cons]
    omega

theorem chunkOffsets_append (ns : List Nat) :
    ∀ (o : Nat) (ms : List Nat),
    chunkOffsets o (ns ++ ms) = chunkOffsets o ns ++ chunkOffsets (o + ns.sum) ms := by
  induction ns with
  | nil => intro o ms; simp [chunkOffsets]
  | cons n ns2 ih =>
    intro o ms
    simp only [List.cons_append, chunkOffsets, List.sum_cons, List.append_eq]
    rw [ih (o + n) ms]
    have harith : o + n + ns2.sum = o + (n + ns2.sum) := by omega
    rw [harith]

theorem dropWhile_head_false {α : Type} {p : α → Bool} :
    ∀ (l : List α) {x : α} {xs : List α}, l.dropWhile p = x :: xs → p x = false := by
  intro l
  induction l with
  | nil => intro x xs h; simp [List.dropWhile] at h
  | cons a l2 ih =>
    intro x xs h
    rw [List.dropWhile_cons] at h
    split at h
    · exact ih h
    · next hpa =>
      simp only [List.cons.injEq] at h
      rw [← h.1]
      exact Bool.not_eq_true _ ▸ (by simpa using hpa)

theorem recoveryScan_pos (b : Byte) (r : List Byte) (k : Nat) :
    1 ≤ (recoveryScan (b :: r) k).1 := by
  simp only [recoveryScan]
  split
  · simp
  · split
    · simp
    · simp

theorem scanFin_eq (r : List Chunk × Nat × Nat × Nat) :
    scanFin r = r.1 ++ (if 0 < r.2.2.2 then [⟨r.2.2.1, r.2.1⟩] else []) := by
  simp only [scanFin]
  split <;> simp_all

theorem closedGroups_ne_nil (target : Nat) :
    ∀ (sl acc : List (List Byte)) (size : Nat) (g : List (List Byte)),
    g ∈ closedGroups target sl acc size → g ≠ [] := by
  intro sl
  induction sl with
  | nil => intro acc size g hg; simp [closedGroups] at hg
  | cons s rest ih =>
    intro acc size g hg
    simp only [closedGroups] at hg
    split at hg
    · rcases List.mem_cons.mp hg with h | h
      · rw [h]; simp
      · exact ih [] 0 g h
    · exact ih (acc ++ [s]) (size + s.length) g hg

theorem closedGroups_flatten_open (target : Nat) :
    ∀ (sl acc : List (List Byte)) (size : Nat),
    (closedGroups target sl acc size).flatten ++ openAcc target sl acc size = acc ++ sl := by
  intro sl
  induction sl with
  | nil => intro acc size; simp [closedGroups, openAcc]
  | cons s rest ih =>
    intro acc size
    simp only [closedGroups, openAcc]
    split
    · have := ih [] 0
      simp only [List.flatten_cons, List.append_assoc, this]
      simp
    · have := ih (acc ++ [s]) (size + s.length)
      rw [this]
      simp

theorem groupSegs_split (target : Nat) :
    ∀ (sl acc : List (List Byte)) (size : Nat), lenSum acc = size →
    groupSegsLoop target sl acc size
      = closedGroups target sl acc size
        ++ (if 0 < lenSum (openAcc target sl acc size)
            then [openAcc target sl acc size] else []) := by
  intro sl
  induction sl with
  | nil =>
    intro acc size hacc
    simp only [groupSegsLoop, closedGroups, openAcc, ← hacc]
    split <;> simp
  | cons s rest ih =>
    intro acc size hacc
    simp only [groupSegsLoop, closedGroups, openAcc]
    split
    · rw [ih [] 0 rfl]
      simp
    · rw [ih (acc ++ [s]) (size + s.length) (by rw [lenSum_append_single, hacc])]

/-- The scanning loop only ever appends to the chunk accumulator. -/
theorem scanLoop_chunks_mono (target : Nat) :
    ∀ (fuel : Nat) (rem : List Byte) (off start size : Nat) (chunks : List Chunk),
    ∃ C2, (scanLoop target fuel rem off start size chunks).1 = chunks ++ C2 := by
  intro fuel
  induction fuel with
  | zero =>
    intro rem off start size chunks
    exact ⟨[], by simp [scanLoop]⟩
  | succ f ih =>
    intro rem off start size chunks
    by_cases hrem : rem = []
    · subst hrem
      exact ⟨[], by simp [scanLoop]⟩
    · have hstep : scanLoop target (f + 1) rem off start size chunks =
          (if validUtf8 (takeLine rem) then
            (if target ≤ size + (takeLine rem).length then
              scanLoop target f (dropLine rem) (off + (takeLine rem).length)
                (off + (takeLine rem).length) 0
                (chunks ++ [⟨start, off + (takeLine rem).length⟩])
            else
              scanLoop target f (dropLine rem) (off + (takeLine rem).length) start
                (size + (takeLine rem).length) chunks)
          else
            (if (recoveryScan (dropLine rem) 0).2.1 then
              (if target ≤ size + (recoveryScan (dropLine rem) 0).1 then
                scanLoop target f (recoveryScan (dropLine rem) 0).2.2
                  (off + (recoveryScan (dropLine rem) 0).1)
                  (off + (recoveryScan (dropLine rem) 0).1) 0
                  (chunks ++ [⟨start, off + (recoveryScan (dropLine rem) 0).1⟩])
              else
                scanLoop target f (recoveryScan (dropLine rem) 0).2.2
                  (off + (recoveryScan (dropLine rem) 0).1) start
                  (size + (recoveryScan (dropLine rem) 0).1) chunks)
            else (chunks, off + (recoveryScan (dropLine rem) 0).1, start,
              size + (recoveryScan (dropLine rem) 0).1))) := by
        simp only [scanLoop]
        rw [if_neg hrem]
      rw [hstep]
      by_cases hv : validUtf8 (takeLine rem)
      · rw [if_pos hv]
        by_cases hc : target ≤ size + (takeLine rem).length
        · rw [if_pos hc]
          obtain ⟨C2, hC2⟩ := ih (dropLine rem) (off + (takeLine rem).length)
            (off + (takeLine rem).length) 0 (chunks ++ [⟨start, off + (takeLine rem).length⟩])
          exact ⟨⟨start, off + (takeLine rem).length⟩ :: C2, by rw [hC2]; simp⟩
        · rw [if_neg hc]
          exact ih (dropLine rem) (off + (takeLine rem).length) start
            (size + (takeLine rem).length) chunks
      · rw [if_neg hv]
        by_cases ht : (recoveryScan (dropLine rem) 0).2.1 = true
        · rw [ht, if_pos rfl]
          by_cases hc : target ≤ size + (recoveryScan (dropLine rem) 0).1
          · rw [if_pos hc]
            obtain ⟨C2, hC2⟩ := ih (recoveryScan (dropLine rem) 0).2.2
              (off + (recoveryScan (dropLine rem) 0).1)
              (off + (recoveryScan (dropLine rem) 0).1) 0
              (chunks ++ [⟨start, off + (recoveryScan (dropLine rem) 0).1⟩])
            exact ⟨⟨start, off + (recoveryScan (dropLine rem) 0).1⟩ :: C2, by rw [hC2]; simp⟩
          · rw [if_neg hc]
            exact ih (recoveryScan (dropLine rem) 0).2.2
              (off + (recoveryScan (dropLine rem) 0).1) start
              (size + (recoveryScan (dropLine rem) 0).1) chunks
        · simp only [Bool.not_eq_true] at ht
          rw [ht]
          simp only [Bool.false_eq_true, if_false]
          exact ⟨[], by simp⟩

/-- The final chunk list extends the accumulator. -/
theorem scanFin_mono (target : Nat) (fuel : Nat) (rem : List Byte) (off start size : Nat)
    (chunks : List Chunk) :
    ∃ C2, scanFin (scanLoop target fuel rem off start size chunks) = chunks ++ C2 := by
  obtain ⟨C1, h1⟩ := scanLoop_chunks_mono target fuel rem off start size chunks
  refine ⟨C1 ++ (if 0 < (scanLoop target fuel rem off start size chunks).2.2.2 then
    [⟨(scanLoop target fuel rem off start size chunks).2.2.1,
      (scanLoop target fuel rem off start size chunks).2.1⟩] else []), ?_⟩
  rw [scanFin_eq, h1]
  simp

/-- Once the open chunk holds bytes and the tracked offset sits beyond a
bound, the final chunk list continues with a chunk starting at the open
chunk's start whose end is beyond that bound. -/
theorem scanLoop_first_push (target bound : Nat) :
    ∀ (fuel : Nat) (rem : List Byte) (off start size : Nat) (chunks : List Chunk),
    0 < size → bound < off →
    ∃ e C2, scanFin (scanLoop target fuel rem off start size chunks)
        = chunks ++ ⟨start, e⟩ :: C2 ∧ bound < e := by
  intro fuel
  induction fuel with
  | zero =>
    intro rem off start size chunks hsz hoff
    refine ⟨off, [], ?_, hoff⟩
    have h0 : scanLoop target 0 rem off start size chunks = (chunks, off, start, size) := rfl
    rw [h0, scanFin_eq]
    simp [hsz]
  | succ f ih =>
    intro rem off start size chunks hsz hoff
    by_cases hrem : rem = []
    · subst hrem
      refine ⟨off, [], ?_, hoff⟩
      have h0 : scanLoop target (f + 1) [] off start size chunks =
          (chunks, off, start, size) := by simp [scanLoop]
      rw [h0, scanFin_eq]
      simp [hsz]
    · have hstep : scanLoop target (f + 1) rem off start size chunks =
          (if validUtf8 (takeLine rem) then
            (if target ≤ size + (takeLine rem).length then
              scanLoop target f (dropLine rem) (off + (takeLine rem).length)
                (off + (takeLine rem).length) 0
                (chunks ++ [⟨start, off + (takeLine rem).length⟩])
            else
              scanLoop target f (dropLine rem) (off + (takeLine rem).length) start
                (size + (takeLine rem).length) chunks)
          else
            (if (recoveryScan (dropLine rem) 0).2.1 then
              (if target ≤ size + (recoveryScan (dropLine rem) 0).1 then
                scanLoop target f (recoveryScan (dropLine rem) 0).2.2
                  (off + (recoveryScan (dropLine rem) 0).1)
                  (off + (recoveryScan (dropLine rem) 0).1) 0
                  (chunks ++ [⟨start, off + (recoveryScan (dropLine rem) 0).1⟩])
              else
                scanLoop target f (recoveryScan (dropLine rem) 0).2.2
                  (off + (recoveryScan (dropLine rem) 0).1) start
                  (size + (recoveryScan (dropLine rem) 0).1) chunks)
            else (chunks, off + (recoveryScan (dropLine rem) 0).1, start,
              size + (recoveryScan (dropLine rem) 0).1))) := by
        simp only [scanLoop]
        rw [if_neg hrem]
      rw [hstep]
      by_cases hv : validUtf8 (takeLine rem)
      · rw [if_pos hv]
        by_cases hc : target ≤ size + (takeLine rem).length
        · rw [if_pos hc]
          obtain ⟨C2, hC2⟩ := scanFin_mono target f (dropLine rem)
            (off + (takeLine rem).length) (off + (takeLine rem).length) 0
            (chunks ++ [⟨start, off + (takeLine rem).length⟩])
          refine ⟨off + (takeLine rem).length, C2, ?_, by omega⟩
          rw [hC2]
          simp
        · rw [if_neg hc]
          exact ih (dropLine rem) (off + (takeLine rem).length) start
            (size + (takeLine rem).length) chunks (by omega) (by omega)
      · rw [if_neg hv]
        by_cases ht : (recoveryScan (dropLine rem) 0).2.1 = true
        · rw [ht, if_pos rfl]
          by_cases hc : target ≤ size + (recoveryScan (dropLine rem) 0).1
          · rw [if_pos hc]
            obtain ⟨C2, hC2⟩ := scanFin_mono target f (recoveryScan (dropLine rem) 0).2.2
              (off + (recoveryScan (dropLine rem) 0).1)
              (off + (recoveryScan (dropLine rem) 0).1) 0
              (chunks ++ [⟨start, off + (recoveryScan (dropLine rem) 0).1⟩])
            refine ⟨off + (recoveryScan (dropLine rem) 0).1, C2, ?_, by omega⟩
            rw [hC2]
            simp
          · rw [if_neg hc]
            exact ih (recoveryScan (dropLine rem) 0).2.2
              (off + (recoveryScan (dropLine rem) 0).1) start
              (size + (recoveryScan (dropLine rem) 0).1) chunks (by omega) (by omega)
        · simp only [Bool.not_eq_true] at ht
          rw [ht]
          simp only [Bool.false_eq_true, if_false]
          refine ⟨off + (recoveryScan (dropLine rem) 0).1, [], ?_, by omega⟩
          rw [scanFin_eq]
          simp only
          rw [if_pos (by omega)]

/-- Running the scanning loop over a decodable run of full lines ahead of an
arbitrary remainder: the loop closes exactly the closedGroups chunks and is
left scanning the remainder with the openAcc group pending. -/
theorem scanLoop_run_front (target : Nat) :
    ∀ (sl : List (List Byte)) (T : List Byte) (fuel start size : Nat)
      (chunks : List Chunk) (acc : List (List Byte)),
    segs (sl.flatten ++ T) = sl ++ segs T →
    (∀ x ∈ sl, validUtf8 x = true) →
    sl.length ≤ fuel → lenSum acc = size →
    ∃ start2,
      scanLoop target fuel (sl.flatten ++ T) (start + size) start size chunks
        = scanLoop target (fuel - sl.length) T (start + size + lenSum sl) start2
            (lenSum (openAcc target sl acc size))
            (chunks ++ chunkOffsets start ((closedGroups target sl acc size).map lenSum))
      ∧ start2 + lenSum (openAcc target sl acc size) = start + size + lenSum sl := by
  intro sl
  induction sl with
  | nil =>
    intro T fuel start size chunks acc _ _ _ hacc
    refine ⟨start, ?_, ?_⟩
    · simp [closedGroups, openAcc, chunkOffsets, lenSum_nil, hacc]
    · simp [openAcc, lenSum_nil, hacc]
  | cons s rest ih =>
    intro T fuel start size chunks acc hsegs hv hfuel hacc
    have hsegs2 : segs ((s :: rest).flatten ++ T) = s :: (rest ++ segs T) := by
      rw [hsegs, List.cons_append]
    have hsne : s ≠ [] := by
      apply mem_segs_ne_nil ((s :: rest).flatten ++ T)
      rw [hsegs2]
      exact List.mem_cons_self _ _
    have hslen : 0 < s.length := List.length_pos.mpr hsne
    have htake : takeLine ((s :: rest).flatten ++ T) = s := takeLine_segs hsegs2
    have hdropsegs : segs (dropLine ((s :: rest).flatten ++ T)) = rest ++ segs T :=
      segs_dropLine hsegs2
    have hdropf : dropLine ((s :: rest).flatten ++ T) = rest.flatten ++ T := by
      rw [dropLine_flatten hsegs2]
      simp [flatten_segs]
    have hsegs3 : segs (rest.flatten ++ T) = rest ++ segs T := by
      rw [← hdropf]
      exact hdropsegs
    have hne : (s :: rest).flatten ++ T ≠ [] := by
      simp only [List.flatten_cons, List.append_assoc]
      intro hcon
      exact hsne (List.append_eq_nil.mp hcon).1
    obtain ⟨f, rfl⟩ : ∃ f, fuel = f + 1 :=
      ⟨fuel - 1, by simp only [List.length_cons] at hfuel; omega⟩
    have hvs : validUtf8 s = true := hv s (List.mem_cons_self s rest)
    have hstep : scanLoop target (f + 1) ((s :: rest).flatten ++ T) (start + size)
          start size chunks =
        (if target ≤ size + s.length then
          scanLoop target f (rest.flatten ++ T) (start + size + s.length)
            (start + size + s.length) 0 (chunks ++ [⟨start, start + size + s.length⟩])
        else
          scanLoop target f (rest.flatten ++ T) (start + size + s.length) start
            (size + s.length) chunks) := by
      simp only [scanLoop]
      rw [if_neg hne, htake, hdropf]
      simp [hvs, Nat.add_assoc]
    rw [hstep]
    have hfuel2 : rest.length ≤ f := by
      simp only [List.length_cons] at hfuel
      omega
    have hfu : f + 1 - (s :: rest).length = f - rest.length := by simp
    have hoffeq : start + size + lenSum (s :: rest) = start + size + s.length + lenSum rest := by
      rw [lenSum_cons]
      omega
    by_cases hcond : target ≤ size + s.length
    · rw [if_pos hcond]
      obtain ⟨start2, hrec, heq⟩ := ih T f (start + size + s.length) 0
        (chunks ++ [⟨start, start + size + s.length⟩]) [] hsegs3
        (fun x hx => hv x (List.mem_cons_of_mem s hx)) hfuel2 rfl
      rw [Nat.add_zero] at hrec heq
      have hclosed : closedGroups target (s :: rest) acc size
          = (acc ++ [s]) :: closedGroups target rest [] 0 := by
        simp only [closedGroups]
        rw [if_pos hcond]
      have hopen : openAcc target (s :: rest) acc size = openAcc target rest [] 0 := by
        simp only [openAcc]
        rw [if_pos hcond]
      have hlen2 : start + lenSum (acc ++ [s]) = start + size + s.length := by
        rw [lenSum_append_single, hacc]
        omega
      refine ⟨start2, ?_, ?_⟩
      · rw [hrec, hfu, hoffeq, hclosed, hopen]
        simp only [List.map_cons, chunkOffsets, hlen2]
        simp [List.append_assoc]
      · rw [hopen, heq, hoffeq]
    · rw [if_neg hcond]
      obtain ⟨start2, hrec, heq⟩ := ih T f start (size + s.length) chunks (acc ++ [s]) hsegs3
        (fun x hx => hv x (List.mem_cons_of_mem s hx)) hfuel2
        (by rw [lenSum_append_single, hacc])
      rw [← Nat.add_assoc] at hrec heq
      have hclosed : closedGroups target (s :: rest) acc size
          = closedGroups target rest (acc ++ [s]) (size + s.length) := by
        simp only [closedGroups]
        rw [if_neg hcond]
      have hopen : openAcc target (s :: rest) acc size
          = openAcc target rest (acc ++ [s]) (size + s.length) := by
        simp only [openAcc]
        rw [if_neg hcond]
      refine ⟨start2, ?_, ?_⟩
      · rw [hrec, hfu, hoffeq, hclosed, hopen]
      · rw [hopen, heq, hoffeq]

/-- When the only undecodable line of the input is its last line, the scan's
read_line failure consumes that line, the recovery scan immediately hits end
of file, and the chunks are exactly those of the decodable front. -/
theorem find_chunk_boundaries_tail {data : List Byte} (target : Nat)
    {V : List (List Byte)} {inv : List Byte}
    (hsegs : segs data = V ++ [inv])
    (hv : ∀ x ∈ V, validUtf8 x = true)
    (hinv : validUtf8 inv = false) :
    find_chunk_boundaries data target
      = if V = [] then [⟨0, 0⟩]
        else chunkOffsets 0 ((groupSegsLoop target V [] 0).map lenSum) := by
  have hinvne : inv ≠ [] := by
    intro h
    rw [h] at hinv
    exact absurd hinv (by decide)
  have hsegsinv : segs inv = [inv] := by
    have h1 := segs_suffix_restore hsegs
    simpa using h1
  have hdata : data = V.flatten ++ inv := by
    have h1 := flatten_segs data
    rw [hsegs] at h1
    simpa using h1.symm
  have hsegsVT : segs (V.flatten ++ inv) = V ++ segs inv := by
    rw [← hdata, hsegs, hsegsinv]
  have hVne : ∀ x ∈ V, x ≠ [] := fun x hx =>
    mem_segs_ne_nil data x (hsegs ▸ List.mem_append_left _ hx)
  have hlenV : lenSum V ≤ data.length := by
    rw [lenSum_eq_length_flatten, hdata]
    simp
  have hlen : V.length ≤ data.length + 1 :=
    le_trans (length_le_lenSum hVne) (by omega)
  obtain ⟨start2, hrun, heq⟩ := scanLoop_run_front target V inv (data.length + 1) 0 0 [] []
    hsegsVT hv hlen rfl
  simp only [Nat.zero_add, Nat.add_zero, List.nil_append] at hrun heq
  rw [← hdata] at hrun
  have hVlen2 : V.length ≤ data.length := le_trans (length_le_lenSum hVne) hlenV
  obtain ⟨f, hf⟩ : ∃ f, data.length + 1 - V.length = f + 1 :=
    ⟨data.length - V.length, by omega⟩
  have htakeinv : takeLine inv = inv := takeLine_segs hsegsinv
  have hdropinv : dropLine inv = [] := by
    have h1 := dropLine_flatten hsegsinv
    simpa using h1
  have hinvP : ¬ (validUtf8 inv = true) := by simp [hinv]
  have hstep : scanLoop target (f + 1) inv (lenSum V) start2
      (lenSum (openAcc target V [] 0))
      (chunkOffsets 0 ((closedGroups target V [] 0).map lenSum))
      = (chunkOffsets 0 ((closedGroups target V [] 0).map lenSum), lenSum V, start2,
        lenSum (openAcc target V [] 0)) := by
    simp only [scanLoop]
    rw [if_neg hinvne, htakeinv, hdropinv, if_neg hinvP]
    simp [recoveryScan]
  rw [hf, hstep] at hrun
  have hCA := closedGroups_flatten_open target V [] 0
  simp only [List.nil_append] at hCA
  have hstart2 : start2 = lenSum (closedGroups target V [] 0).flatten := by
    have h2 : lenSum ((closedGroups target V [] 0).flatten ++ openAcc target V [] 0)
        = lenSum V := by rw [hCA]
    rw [lenSum_append] at h2
    omega
  simp only [find_chunk_boundaries]
  rw [hrun]
  rw [scanFin_eq]
  have hsplit := groupSegs_split target V [] 0 rfl
  have hgoal : chunkOffsets 0 ((closedGroups target V [] 0).map lenSum)
      ++ (if 0 < lenSum (openAcc target V [] 0) then [⟨start2, lenSum V⟩] else [])
      = chunkOffsets 0 ((groupSegsLoop target V [] 0).map lenSum) := by
    rw [hsplit, List.map_append, chunkOffsets_append]
    congr 1
    rw [Nat.zero_add, sum_map_lenSum, ← hstart2]
    by_cases hA : 0 < lenSum (openAcc target V [] 0)
    · simp [hA, chunkOffsets, heq]
    · simp [hA, chunkOffsets]
  rw [hgoal]
  by_cases hVnil : V = []
  · subst hVnil
    simp only [closedGroups, openAcc, groupSegsLoop, lenSum_nil]
    simp [chunkOffsets, lenSum_nil]
  · rw [if_neg hVnil]
    have hgne : groupSegsLoop target V [] 0 ≠ [] :=
      groupSegsLoop_ne_nil target V [] 0 hVnil hVne
    have hcne : chunkOffsets 0 ((groupSegsLoop target V [] 0).map lenSum) ≠ [] := by
      cases hg : groupSegsLoop target V [] 0 with
      | nil => exact absurd hg hgne
      | cons a gs => simp [chunkOffsets]
    rw [if_neg hcne]

/-- When an undecodable line is followed by further content, the recovery
scan counts at least one byte, so the final chunk list continues the closed
front chunks with a chunk that starts at the open group's start and ends
strictly past the decodable front. -/
theorem find_chunk_boundaries_mid {data : List Byte} (target : Nat)
    {V : List (List Byte)} {inv : List Byte} {rest : List (List Byte)}
    (hsegs : segs data = V ++ inv :: rest)
    (hv : ∀ x ∈ V, validUtf8 x = true)
    (hinv : validUtf8 inv = false) (hrest : rest ≠ []) :
    ∃ e C2,
      find_chunk_boundaries data target
        = chunkOffsets 0 ((closedGroups target V [] 0).map lenSum)
          ++ ⟨lenSum (closedGroups target V [] 0).flatten, e⟩ :: C2
      ∧ lenSum V < e := by
  have hinvne : inv ≠ [] := by
    intro h
    rw [h] at hinv
    exact absurd hinv (by decide)
  have hsegstail : segs (inv ++ rest.flatten) = inv :: rest := by
    have h1 := segs_suffix_restore hsegs
    simpa using h1
  have hdata : data = V.flatten ++ (inv ++ rest.flatten) := by
    have h1 := flatten_segs data
    rw [hsegs] at h1
    simpa using h1.symm
  have hsegsVT : segs (V.flatten ++ (inv ++ rest.flatten))
      = V ++ segs (inv ++ rest.flatten) := by
    rw [← hdata, hsegs, hsegstail]
  have hVne : ∀ x ∈ V, x ≠ [] := fun x hx =>
    mem_segs_ne_nil data x (hsegs ▸ List.mem_append_left _ hx)
  have hlenV : lenSum V ≤ data.length := by
    rw [lenSum_eq_length_flatten, hdata]
    simp
  have hlen : V.length ≤ data.length + 1 := le_trans (length_le_lenSum hVne) (by omega)
  obtain ⟨start2, hrun, heq⟩ := scanLoop_run_front target V (inv ++ rest.flatten)
    (data.length + 1) 0 0 [] [] hsegsVT hv hlen rfl
  simp only [Nat.zero_add, Nat.add_zero, List.nil_append] at hrun heq
  rw [← hdata] at hrun
  have hVlen2 : V.length ≤ data.length := le_trans (length_le_lenSum hVne) hlenV
  obtain ⟨f, hf⟩ : ∃ f, data.length + 1 - V.length = f + 1 :=
    ⟨data.length - V.length, by omega⟩
  rw [hf] at hrun
  have htakeT : takeLine (inv ++ rest.flatten) = inv := takeLine_segs hsegstail
  have hdropT : dropLine (inv ++ rest.flatten) = rest.flatten := dropLine_flatten hsegstail
  have hinvP : ¬ (validUtf8 inv = true) := by simp [hinv]
  have hTne : inv ++ rest.flatten ≠ [] := fun hc => hinvne (List.append_eq_nil.mp hc).1
  have hrfne : rest.flatten ≠ [] := by
    cases hr : rest with
    | nil => exact absurd hr hrest
    | cons y r2 =>
      have hy : y ≠ [] := by
        apply mem_segs_ne_nil data
        rw [hsegs, hr]
        exact List.mem_append_right _ (List.mem_cons_of_mem inv (List.mem_cons_self y r2))
      simp only [List.flatten_cons]
      exact fun hc => hy (List.append_eq_nil.mp hc).1
  have ht1 : 1 ≤ (recoveryScan rest.flatten 0).1 := by
    cases hc : rest.flatten with
    | nil => exact absurd hc hrfne
    | cons b r => exact recoveryScan_pos b r 0
  have hCA := closedGroups_flatten_open target V [] 0
  simp only [List.nil_append] at hCA
  have hstart2 : start2 = lenSum (closedGroups target V [] 0).flatten := by
    have h2 : lenSum ((closedGroups target V [] 0).flatten ++ openAcc target V [] 0)
        = lenSum V := by rw [hCA]
    rw [lenSum_append] at h2
    omega
  have hstep : scanLoop target (f + 1) (inv ++ rest.flatten) (lenSum V) start2
      (lenSum (openAcc target V [] 0))
      (chunkOffsets 0 ((closedGroups target V [] 0).map lenSum)) =
      (if (recoveryScan rest.flatten 0).2.1 then
        (if target ≤ lenSum (openAcc target V [] 0) + (recoveryScan rest.flatten 0).1 then
          scanLoop target f (recoveryScan rest.flatten 0).2.2
            (lenSum V + (recoveryScan rest.flatten 0).1)
            (lenSum V + (recoveryScan rest.flatten 0).1) 0
            (chunkOffsets 0 ((closedGroups target V [] 0).map lenSum)
              ++ [⟨start2, lenSum V + (recoveryScan rest.flatten 0).1⟩])
        else
          scanLoop target f (recoveryScan rest.flatten 0).2.2
            (lenSum V + (recoveryScan rest.flatten 0).1) start2
            (lenSum (openAcc target V [] 0) + (recoveryScan rest.flatten 0).1)
            (chunkOffsets 0 ((closedGroups target V [] 0).map lenSum)))
      else (chunkOffsets 0 ((closedGroups target V [] 0).map lenSum),
        lenSum V + (recoveryScan rest.flatten 0).1, start2,
        lenSum (openAcc target V [] 0) + (recoveryScan rest.flatten 0).1)) := by
    simp only [scanLoop]
    rw [if_neg hTne, htakeT, hdropT, if_neg hinvP]
  rw [hstep] at hrun
  by_cases htf : (recoveryScan rest.flatten 0).2.1 = true
  · rw [htf, if_pos rfl] at hrun
    by_cases hcond : target ≤ lenSum (openAcc target V [] 0)
        + (recoveryScan rest.flatten 0).1
    · rw [if_pos hcond] at hrun
      obtain ⟨C2, hC2⟩ := scanFin_mono target f (recoveryScan rest.flatten 0).2.2
        (lenSum V + (recoveryScan rest.flatten 0).1)
        (lenSum V + (recoveryScan rest.flatten 0).1) 0
        (chunkOffsets 0 ((closedGroups target V [] 0).map lenSum)
          ++ [⟨start2, lenSum V + (recoveryScan rest.flatten 0).1⟩])
      refine ⟨lenSum V + (recoveryScan rest.flatten 0).1, C2, ?_, by omega⟩
      simp only [find_chunk_boundaries]
      rw [hrun, hC2, if_neg (by simp), ← hstart2]
      simp
    · rw [if_neg hcond] at hrun
      obtain ⟨e, C2, hsf, he⟩ := scanLoop_first_push target (lenSum V) f
        (recoveryScan rest.flatten 0).2.2
        (lenSum V + (recoveryScan rest.flatten 0).1) start2
        (lenSum (openAcc target V [] 0) + (recoveryScan rest.flatten 0).1)
        (chunkOffsets 0 ((closedGroups target V [] 0).map lenSum))
        (by omega) (by omega)
      refine ⟨e, C2, ?_, he⟩
      simp only [find_chunk_boundaries]
      rw [hrun, hsf, if_neg (by simp), ← hstart2]
  · simp only [Bool.not_eq_true] at htf
    rw [htf] at hrun
    simp only [Bool.false_eq_true, if_false] at hrun
    refine ⟨lenSum V + (recoveryScan rest.flatten 0).1, [], ?_, by omega⟩
    simp only [find_chunk_boundaries]
    rw [hrun, scanFin_eq]
    rw [if_pos (by omega : (0 : Nat) < lenSum (openAcc target V [] 0)
      + (recoveryScan rest.flatten 0).1)]
    rw [if_neg (by simp), ← hstart2]

/-! The processing layer with the fingerprint abstract: the same projection,
content and alignment lemmas as for the concrete pipeline, uniformly in the
fingerprint function hf. -/

theorem projL_procLineH (hf : List Byte → Nat) (st : PState) (l : List Byte) :
    projL (procLineH hf st l) = lineStepH hf (projL st) l := by
  simp only [procLineH, lineStepH]
  by_cases hm : hf l ∈ st.seen
  · have hm2 : hf l ∈ ({ st with lines_processed := st.lines_processed + 1 } : PState).seen := hm
    rw [if_pos hm2]
    have hm3 : hf l ∈ (projL st).seen := hm
    rw [show ({ projL st with lines_processed := (projL st).lines_processed + 1 } : LState).seen
        = (projL st).seen from rfl] at hm3 ⊢
    rw [if_pos hm3]
    split <;> rfl
  · have hm2 : hf l ∉ ({ st with lines_processed := st.lines_processed + 1 } : PState).seen := hm
    rw [if_neg hm2]
    have hm3 : hf l ∉ ({ projL st with lines_processed :=
        (projL st).lines_processed + 1 } : LState).seen := hm
    rw [if_neg hm3]
    split
    · rw [projL_sinkFlush, projL_sinkWrite]
      rfl
    · rw [projL_sinkWrite]
      rfl

theorem content_procLineH (hf : List Byte → Nat) (st : PState) (l : List Byte) :
    content (procLineH hf st l) =
      content st ++ (if hf l ∈ st.seen then [] else l) := by
  simp only [procLineH]
  by_cases hm : hf l ∈ st.seen
  · have hm2 : hf l ∈ ({ st with lines_processed := st.lines_processed + 1 } : PState).seen := hm
    rw [if_pos hm2, if_pos hm]
    split
    · rw [content_sinkFlush]
      simp [content]
    · simp [content]
  · have hm2 : hf l ∉ ({ st with lines_processed := st.lines_processed + 1 } : PState).seen := hm
    rw [if_neg hm2, if_neg hm]
    split
    · rw [content_sinkFlush, content_sinkWrite]
      simp [content]
    · rw [content_sinkWrite]
      simp [content]

theorem written_procLineH (hf : List Byte → Nat) (st : PState) (l : List Byte) :
    (procLineH hf st l).written =
      st.written ++ (if hf l ∈ st.seen then [] else [l]) := by
  have h := projL_procLineH hf st l
  have hw : (procLineH hf st l).written = (projL (procLineH hf st l)).written := rfl
  rw [hw, h]
  simp only [lineStepH]
  by_cases hm : hf l ∈ st.seen
  · have hm3 : hf l ∈ ({ projL st with lines_processed :=
        (projL st).lines_processed + 1 } : LState).seen := hm
    rw [if_pos hm3, if_pos hm]
    simp [projL]
  · have hm3 : hf l ∉ ({ projL st with lines_processed :=
        (projL st).lines_processed + 1 } : LState).seen := hm
    rw [if_neg hm3, if_neg hm]
    simp [projL]

theorem content_inv_procLineH (hf : List Byte → Nat) {st : PState} (l : List Byte)
    (hinv : content st = st.written.flatten) :
    content (procLineH hf st l) = (procLineH hf st l).written.flatten := by
  rw [content_procLineH, written_procLineH, hinv]
  split <;> simp

theorem procLoopH_groups (hf : List Byte → Nat) :
    ∀ (g : List (List Byte)) (t2 : List Byte) (s : Nat) (st : PState) (fuel : Nat),
    (∀ x ∈ g, validUtf8 x = true) →
    segs (g.flatten ++ t2) = g ++ segs t2 →
    (g.flatten ++ t2).length < fuel →
    procLoopH hf fuel (g.flatten ++ t2) (s + lenSum g) s st =
      (Except.ok (), g.foldl (procLineH hf) st) := by
  intro g
  induction g with
  | nil =>
    intro t2 s st fuel _ _ _
    cases fuel with
    | zero => simp [procLoopH]
    | succ f =>
      simp [procLoopH, lenSum_nil]
  | cons x g2 ih =>
    intro t2 s st fuel hv hsegs hfuel
    have hsegs2 : segs ((x :: g2).flatten ++ t2) = x :: (g2 ++ segs t2) := by
      rw [hsegs, List.cons_append]
    have hxne : x ≠ [] := by
      apply mem_segs_ne_nil ((x :: g2).flatten ++ t2)
      rw [hsegs2]
      exact List.mem_cons_self x (g2 ++ segs t2)
    have hxlen : 0 < x.length := List.length_pos.mpr hxne
    have hflat : (x :: g2).flatten ++ t2 = x ++ (g2.flatten ++ t2) := by simp
    have htake : takeLine ((x :: g2).flatten ++ t2) = x := takeLine_segs hsegs2
    have hdropf : dropLine ((x :: g2).flatten ++ t2) = g2.flatten ++ t2 := by
      have h2 := dropLine_flatten hsegs2
      rw [h2]
      simp [flatten_segs]
    have hdrops : segs (g2.flatten ++ t2) = g2 ++ segs t2 := by
      have h2 := segs_dropLine hsegs2
      rw [hdropf] at h2
      rw [h2]
    have hrlen : ((x :: g2).flatten ++ t2).length = x.length + (g2.flatten ++ t2).length := by
      simp
    obtain ⟨f, rfl⟩ : ∃ f, fuel = f + 1 := ⟨fuel - 1, by omega⟩
    have hne2 : (x :: g2).flatten ++ t2 ≠ [] := by
      rw [hflat]
      exact fun hc => hxne (List.append_eq_nil.mp hc).1
    have hoff : ¬ (s + lenSum (x :: g2) ≤ s) := by
      rw [lenSum_cons]
      omega
    have hvx : validUtf8 x = true := hv x (List.mem_cons_self x g2)
    have hstep : procLoopH hf (f + 1) ((x :: g2).flatten ++ t2) (s + lenSum (x :: g2)) s st =
        procLoopH hf f (g2.flatten ++ t2) (s + lenSum (x :: g2)) (s + x.length)
          (procLineH hf st x) := by
      simp only [procLoopH, if_neg hoff, if_neg hne2, htake, hvx]
      have hskip : ¬ (x = [] ∧ x.length = 1) := fun hc => hxne hc.1
      have hdropf2 : dropLine (x ++ (g2.flatten ++ t2)) = g2.flatten ++ t2 := by
        rw [← hflat]
        exact hdropf
      simp [hskip, hdropf, hdropf2]
    rw [hstep]
    have harith : s + lenSum (x :: g2) = (s + x.length) + lenSum g2 := by
      rw [lenSum_cons]
      omega
    rw [harith]
    have := ih t2 (s + x.length) (procLineH hf st x) f
      (fun y hy => hv y (List.mem_cons_of_mem x hy)) hdrops (by omega)
    rw [this]
    simp

theorem projL_foldlH (hf : List Byte → Nat) (g : List (List Byte)) (st : PState) :
    projL (g.foldl (procLineH hf) st) = runLH hf (projL st) g := by
  induction g generalizing st with
  | nil => rfl
  | cons x g2 ih =>
    simp only [List.foldl_cons, runLH]
    rw [ih, ← projL_procLineH]
    rfl

theorem content_inv_foldlH (hf : List Byte → Nat) (g : List (List Byte)) (st : PState)
    (h : content st = st.written.flatten) :
    content (g.foldl (procLineH hf) st) = (g.foldl (procLineH hf) st).written.flatten := by
  induction g generalizing st with
  | nil => exact h
  | cons x g2 ih => exact ih (procLineH hf st x) (content_inv_procLineH hf x h)

theorem process_chunk_alignedH (hf : List Byte → Nat) {data : List Byte}
    {g : List (List Byte)} {t2 : List Byte} {o : Nat} (st : PState) (ho : o ≤ data.length)
    (hdrop : data.drop o = g.flatten ++ t2)
    (hsegs : segs (g.flatten ++ t2) = g ++ segs t2)
    (hv : ∀ x ∈ g, validUtf8 x = true) :
    process_chunk_streamH hf data ⟨o, o + lenSum g⟩ st =
      (Except.ok (), g.foldl (procLineH hf) st) := by
  have hlen : (g.flatten ++ t2).length < data.length + 1 := by
    rw [← hdrop, List.length_drop]
    omega
  simp only [process_chunk_streamH]
  rw [if_neg (show ¬ data.length < o by omega), hdrop]
  exact procLoopH_groups hf g t2 o st (data.length + 1) hv hsegs hlen

/-- Processing the chunks of an aligned grouping, with an arbitrary trailing
remainder after the grouped lines, succeeds and computes the fold of the
per-line step over the grouped lines without touching the remainder. -/
theorem chunkLoopH_groups_tail (hf : List Byte → Nat) (data : List Byte) :
    ∀ (gs : List (List (List Byte))) (T : List Byte) (o idx : Nat) (st : PState),
    (∀ g ∈ gs, ∀ x ∈ g, validUtf8 x = true) →
    (∀ g ∈ gs, g ≠ []) →
    data.drop o = gs.flatten.flatten ++ T →
    segs (data.drop o) = gs.flatten ++ segs T →
    content st = st.written.flatten →
    ∃ st2, chunkLoopH hf data (chunkOffsets o (gs.map lenSum)) idx st = Except.ok st2 ∧
      projL st2 = runLH hf (projL st) gs.flatten ∧
      content st2 = st2.written.flatten := by
  intro gs
  induction gs with
  | nil =>
    intro T o idx st _ _ _ _ hc
    refine ⟨st, ?_, ?_, hc⟩
    · simp [chunkOffsets, chunkLoopH]
    · simp [runLH]
  | cons g gs2 ih =>
    intro T o idx st hv hgne hdrop hsegs hc
    have hsegs2 : segs (data.drop o) = g ++ (gs2.flatten ++ segs T) := by
      rw [hsegs]
      simp
    have hrest : segs (gs2.flatten.flatten ++ T) = gs2.flatten ++ segs T := by
      have h1 := segs_suffix_restore hsegs2
      rw [List.flatten_append, flatten_segs] at h1
      exact h1
    have hdrop2 : data.drop o = g.flatten ++ (gs2.flatten.flatten ++ T) := by
      rw [hdrop]
      simp
    have hsegs3 : segs (g.flatten ++ (gs2.flatten.flatten ++ T))
        = g ++ segs (gs2.flatten.flatten ++ T) := by
      rw [← hdrop2, hsegs2, hrest]
    have hgelne : ∀ x ∈ g, x ≠ [] := by
      intro x hx
      exact mem_segs_ne_nil (data.drop o) x (hsegs2 ▸ List.mem_append_left _ hx)
    have hgflatne : g.flatten ≠ [] := by
      have hg : g ≠ [] := hgne g (List.mem_cons_self g gs2)
      cases hgl : g with
      | nil => exact absurd hgl hg
      | cons a g3 =>
        have ha : a ≠ [] := hgelne a (by rw [hgl]; exact List.mem_cons_self a g3)
        simp only [List.flatten_cons]
        exact fun hcon => ha (List.append_eq_nil.mp hcon).1
    have ho : o < data.length := by
      by_contra hcon
      have hdn : data.drop o = [] := List.drop_eq_nil_iff.mpr (by omega)
      rw [hdn] at hdrop2
      exact hgflatne (List.append_eq_nil.mp hdrop2.symm).1
    have hproc := process_chunk_alignedH hf st (le_of_lt ho) hdrop2 hsegs3
      (fun x hx => hv g (List.mem_cons_self g gs2) x hx)
    have hco : chunkOffsets o ((g :: gs2).map lenSum) =
        Chunk.mk o (o + lenSum g) :: chunkOffsets (o + lenSum g) (gs2.map lenSum) := by
      simp [chunkOffsets]
    rw [hco]
    simp only [chunkLoopH, hproc]
    set st1 := g.foldl (procLineH hf) st with hst1
    set st3 := if (idx + 1) % 50 = 0 then sinkFlush st1 else st1 with hst3
    have hproj3 : projL st3 = runLH hf (projL st) g := by
      rw [hst3]
      split
      · rw [projL_sinkFlush, hst1, projL_foldlH]
      · rw [hst1, projL_foldlH]
    have hcont1 : content st1 = st1.written.flatten := content_inv_foldlH hf g st hc
    have hcont3 : content st3 = st3.written.flatten := by
      rw [hst3]
      split
      · rw [content_sinkFlush]
        exact hcont1
      · exact hcont1
    have hdropnext : data.drop (o + lenSum g) = gs2.flatten.flatten ++ T := by
      have h1 : data.drop (o + lenSum g) = (data.drop o).drop (lenSum g) := by
        rw [List.drop_drop]
      rw [h1, hdrop2, lenSum_eq_length_flatten]
      exact List.drop_left g.flatten (gs2.flatten.flatten ++ T)
    have hsegsnext : segs (data.drop (o + lenSum g)) = gs2.flatten ++ segs T := by
      rw [hdropnext]
      exact hrest
    obtain ⟨st2, hrun, hp2, hc2⟩ := ih T (o + lenSum g) (idx + 1) st3
      (fun g2 hg2 => hv g2 (List.mem_cons_of_mem g hg2))
      (fun g2 hg2 => hgne g2 (List.mem_cons_of_mem g hg2))
      hdropnext hsegsnext hcont3
    refine ⟨st2, hrun, ?_, hc2⟩
    rw [hp2, hproj3]
    simp only [List.flatten_cons, runLH, List.foldl_append]

/-- Invariants of the pure per-line fold, for any lowercase mapping and any
fingerprint that identifies lines with equal lowercased content. -/
theorem runLH_inv (lower : List Byte → List Byte) (hf : List Byte → Nat)
    (hcong : ∀ a b : List Byte, lower a = lower b → hf a = hf b)
    (ls : List (List Byte)) :
    ∀ (p : List (List Byte)) (st : LState),
    st.seen = st.written.map hf →
    st.seen.Nodup →
    (∀ w ∈ st.written, p.find? (fun s => lower s == lower w) = some w) →
    (∀ l ∈ p, hf l ∈ st.seen) →
    List.Sublist st.written p →
    (runLH hf st ls).seen = (runLH hf st ls).written.map hf ∧
    (runLH hf st ls).seen.Nodup ∧
    (∀ w ∈ (runLH hf st ls).written,
      (p ++ ls).find? (fun s => lower s == lower w) = some w) ∧
    (∀ l ∈ p ++ ls, hf l ∈ (runLH hf st ls).seen) ∧
    List.Sublist (runLH hf st ls).written (p ++ ls) := by
  induction ls with
  | nil =>
    intro p st h1 h2 h3 h4 h5
    simpa [runLH] using ⟨h1, h2, h3, h4, h5⟩
  | cons l ls2 ih =>
    intro p st h1 h2 h3 h4 h5
    have hstep : runLH hf st (l :: ls2) = runLH hf (lineStepH hf st l) ls2 := rfl
    rw [hstep]
    have hassoc : p ++ l :: ls2 = (p ++ [l]) ++ ls2 := by simp
    rw [hassoc]
    by_cases hm : hf l ∈ st.seen
    · have hls : lineStepH hf st l =
          { st with lines_processed := st.lines_processed + 1, duplicates_removed := st.duplicates_removed + 1 } := by
        simp only [lineStepH]
        rw [if_pos hm]
      refine ih (p ++ [l]) (lineStepH hf st l) ?_ ?_ ?_ ?_ ?_
      · rw [hls]; exact h1
      · rw [hls]; exact h2
      · intro w hw
        rw [hls] at hw
        rw [List.find?_append, h3 w hw]
        rfl
      · intro x hx
        rw [hls]
        rcases List.mem_append.mp hx with h | h
        · exact h4 x h
        · simp at h
          rw [h]
          exact hm
      · rw [hls]
        exact h5.trans (List.sublist_append_left p [l])
    · have hls : lineStepH hf st l =
          { st with lines_processed := st.lines_processed + 1, seen := st.seen ++ [hf l], written := st.written ++ [l] } := by
        simp only [lineStepH]
        rw [if_neg hm]
      have hfindp : p.find? (fun s => lower s == lower l) = none := by
        rw [List.find?_eq_none]
        intro x hx hpred
        apply hm
        have hlow : lower x = lower l := by
          simpa using hpred
        rw [← hcong x l hlow]
        exact h4 x hx
      refine ih (p ++ [l]) (lineStepH hf st l) ?_ ?_ ?_ ?_ ?_
      · rw [hls]
        simp [h1]
      · rw [hls]
        simp only [List.nodup_append]
        refine ⟨h2, List.nodup_singleton _, ?_⟩
        intro a ha hb
        simp at hb
        rw [hb] at ha
        exact hm ha
      · intro w hw
        rw [hls] at hw
        simp only at hw
        rcases List.mem_append.mp hw with h | h
        · rw [List.find?_append, h3 w h]
          rfl
        · simp at h
          rw [h]
          rw [List.find?_append, hfindp]
          simp [List.find?]
      · intro x hx
        rw [hls]
        simp only
        rcases List.mem_append.mp hx with h | h
        · exact List.mem_append_left _ (h4 x h)
        · simp at h
          rw [h]
          exact List.mem_append_right _ (by simp)
      · rw [hls]
        simp only
        exact h5.append (List.Sublist.refl [l])

theorem runLH_main (lower : List Byte → List Byte) (hf : List Byte → Nat)
    (hcong : ∀ a b : List Byte, lower a = lower b → hf a = hf b)
    (ls : List (List Byte)) :
    (runLH hf initL ls).seen = (runLH hf initL ls).written.map hf ∧
    (runLH hf initL ls).seen.Nodup ∧
    (∀ w ∈ (runLH hf initL ls).written,
      ls.find? (fun s => lower s == lower w) = some w) ∧
    (∀ l ∈ ls, hf l ∈ (runLH hf initL ls).seen) ∧
    List.Sublist (runLH hf initL ls).written ls := by
  have h := runLH_inv lower hf hcong ls [] initL rfl List.nodup_nil (by simp [initL])
    (by simp) (by simp [initL])
  simpa using h

theorem runLH_fresh (hf : List Byte → Nat) :
    ∀ (ls : List (List Byte)) (st : LState),
    (∀ l ∈ ls, hf l ∉ st.seen) → (ls.map hf).Nodup →
    (runLH hf st ls).written = st.written ++ ls ∧
    (runLH hf st ls).duplicates_removed = st.duplicates_removed := by
  intro ls
  induction ls with
  | nil =>
    intro st _ _
    simp [runLH]
  | cons l ls2 ih =>
    intro st hfresh hnd
    have hm : hf l ∉ st.seen := hfresh l (List.mem_cons_self l ls2)
    have hls : lineStepH hf st l =
        { st with lines_processed := st.lines_processed + 1, seen := st.seen ++ [hf l], written := st.written ++ [l] } := by
      simp only [lineStepH]
      rw [if_neg hm]
    have hstep : runLH hf st (l :: ls2) = runLH hf (lineStepH hf st l) ls2 := rfl
    rw [hstep]
    simp only [List.map_cons, List.nodup_cons] at hnd
    have hrec := ih (lineStepH hf st l) ?_ hnd.2
    · rw [hls] at hrec
      rw [hls, hrec.1, hrec.2]
      simp
    · intro x hx
      rw [hls]
      simp only [List.mem_append]
      rintro (h | h)
      · exact hfresh x (List.mem_cons_of_mem l hx) h
      · simp at h
        exact hnd.1 (h ▸ List.mem_map_of_mem hf hx)

/-- Simulation on decodable input, uniformly in the fingerprint: a full run
succeeds and its observable outcome is the pure per-line fold over the lines
of the input. -/
theorem runH_valid (hf : List Byte → Nat) (data : List Byte) (target : Nat)
    (hv : ∀ x ∈ segs data, validUtf8 x = true) :
    ∃ st, deduplicator_processH hf data target = Except.ok st ∧
      projL st = runLH hf initL (segs data) ∧ st.buf = [] ∧
      st.flushed = (runLH hf initL (segs data)).written.flatten := by
  by_cases hne : data = []
  · subst hne
    have hfcb : find_chunk_boundaries [] target = [⟨0, 0⟩] := find_chunk_boundaries_nil target
    have hproc : process_chunk_streamH hf [] ⟨0, 0⟩ initState = (Except.ok (), initState) := by
      simp [process_chunk_streamH, procLoopH]
    have hloop : chunkLoopH hf [] [⟨0, 0⟩] 0 initState = Except.ok initState := by
      simp [chunkLoopH, hproc]
    refine ⟨initState, ?_, rfl, rfl, rfl⟩
    simp only [deduplicator_processH, hfcb]
    have hany0 : (([⟨0, 0⟩] : List Chunk).any
        fun c => ([] : List Byte).length < c.start_offset) = false := by simp
    rw [hany0]
    simp only [Bool.false_eq_true, if_false]
    rw [hloop]
    rfl
  · have hchunks := find_chunk_boundaries_valid target hv hne
    have hslne : segs data ≠ [] := fun hc => hne ((segs_eq_nil_iff data).mp hc)
    have hflat_gs : (groupsOf data target).flatten = segs data := by
      simpa using groupSegsLoop_flatten target (segs data) [] 0 (mem_segs_ne_nil data)
        rfl (fun _ => rfl)
    have hsum : ((groupsOf data target).map lenSum).sum = data.length := by
      rw [sum_map_lenSum, hflat_gs, lenSum_eq_length_flatten, flatten_segs]
    have hval : ∀ c ∈ find_chunk_boundaries data target, c.start_offset ≤ data.length := by
      intro c hc
      rw [hchunks] at hc
      have := chunkOffsets_mem_bounds ((groupsOf data target).map lenSum) 0 c hc
      omega
    have hany : (find_chunk_boundaries data target).any
        (fun c => data.length < c.start_offset) = false := by
      rw [List.any_eq_false]
      intro c hc
      simp only [decide_eq_true_eq, not_lt]
      exact hval c hc
    obtain ⟨st2, hrun, hp2, hc2⟩ := chunkLoopH_groups_tail hf data (groupsOf data target) []
      0 0 initState
      (by
        intro g hg x hx
        exact hv x (hflat_gs ▸ List.mem_flatten.mpr ⟨g, hg, hx⟩))
      (groupSegsLoop_groups_ne_nil target (segs data) [] 0 rfl)
      (by rw [List.drop_zero, List.append_nil, hflat_gs, flatten_segs])
      (by rw [List.drop_zero, show segs ([] : List Byte) = [] from rfl, List.append_nil,
        hflat_gs])
      rfl
    refine ⟨sinkFlush st2, ?_, ?_, rfl, ?_⟩
    · simp only [deduplicator_processH]
      rw [hany]
      simp only [Bool.false_eq_true, if_false]
      rw [hchunks, hrun]
    · rw [projL_sinkFlush, hp2, hflat_gs]
      rfl
    · have h1 : (sinkFlush st2).flushed = content st2 := rfl
      rw [h1, hc2]
      have h2 : st2.written = (projL st2).written := rfl
      rw [h2, hp2, hflat_gs]
      rfl

/-- A run on an input whose only undecodable line is its last line succeeds
and behaves as the pure per-line fold over the decodable front: the chunks
cover only the front, and the last line is silently dropped. -/
theorem runH_prefix (hf : List Byte → Nat) {data : List Byte} (target : Nat)
    {V : List (List Byte)} {inv : List Byte}
    (hsegs : segs data = V ++ [inv])
    (hv : ∀ x ∈ V, validUtf8 x = true)
    (hinv : validUtf8 inv = false) :
    ∃ st, deduplicator_processH hf data target = Except.ok st ∧
      projL st = runLH hf initL V ∧ st.buf = [] ∧
      st.flushed = (runLH hf initL V).written.flatten := by
  have hfcb := find_chunk_boundaries_tail target hsegs hv hinv
  by_cases hVnil : V = []
  · subst hVnil
    rw [if_pos rfl] at hfcb
    have hproc : process_chunk_streamH hf data ⟨0, 0⟩ initState = (Except.ok (), initState) := by
      simp [process_chunk_streamH, procLoopH]
    have hloop : chunkLoopH hf data [⟨0, 0⟩] 0 initState = Except.ok initState := by
      simp [chunkLoopH, hproc]
    refine ⟨initState, ?_, rfl, rfl, rfl⟩
    simp only [deduplicator_processH, hfcb]
    have hany0 : (([⟨0, 0⟩] : List Chunk).any
        fun c => data.length < c.start_offset) = false := by simp
    rw [hany0]
    simp only [Bool.false_eq_true, if_false]
    rw [hloop]
    rfl
  · rw [if_neg hVnil] at hfcb
    have hVne : ∀ x ∈ V, x ≠ [] := fun x hx =>
      mem_segs_ne_nil data x (hsegs ▸ List.mem_append_left _ hx)
    have hsegsinv : segs inv = [inv] := by
      have h1 := segs_suffix_restore hsegs
      simpa using h1
    have hdata : data = V.flatten ++ inv := by
      have h1 := flatten_segs data
      rw [hsegs] at h1
      simpa using h1.symm
    have hflat_gs : (groupSegsLoop target V [] 0).flatten = V := by
      simpa using groupSegsLoop_flatten target V [] 0 hVne rfl (fun _ => rfl)
    have hsum : ((groupSegsLoop target V [] 0).map lenSum).sum = lenSum V := by
      rw [sum_map_lenSum, hflat_gs]
    have hlenV : lenSum V ≤ data.length := by
      rw [lenSum_eq_length_flatten, hdata]
      simp
    have hval : ∀ c ∈ find_chunk_boundaries data target, c.start_offset ≤ data.length := by
      intro c hc
      rw [hfcb] at hc
      have := chunkOffsets_mem_bounds ((groupSegsLoop target V [] 0).map lenSum) 0 c hc
      omega
    have hany : (find_chunk_boundaries data target).any
        (fun c => data.length < c.start_offset) = false := by
      rw [List.any_eq_false]
      intro c hc
      simp only [decide_eq_true_eq, not_lt]
      exact hval c hc
    obtain ⟨st2, hrun, hp2, hc2⟩ := chunkLoopH_groups_tail hf data
      (groupSegsLoop target V [] 0) inv 0 0 initState
      (by
        intro g hg x hx
        exact hv x (hflat_gs ▸ List.mem_flatten.mpr ⟨g, hg, hx⟩))
      (groupSegsLoop_groups_ne_nil target V [] 0 rfl)
      (by rw [List.drop_zero, hflat_gs]; exact hdata)
      (by rw [List.drop_zero, hflat_gs, hsegs, hsegsinv])
      rfl
    refine ⟨sinkFlush st2, ?_, ?_, rfl, ?_⟩
    · simp only [deduplicator_processH]
      rw [hany]
      simp only [Bool.false_eq_true, if_false]
      rw [hfcb, hrun]
    · rw [projL_sinkFlush, hp2, hflat_gs]
      rfl
    · have h1 : (sinkFlush st2).flushed = content st2 := rfl
      rw [h1, hc2]
      have h2 : st2.written = (projL st2).written := rfl
      rw [h2, hp2, hflat_gs]
      rfl

/-- The reading loop fails with a read error as soon as it reaches an
undecodable line lying before the chunk end. -/
theorem procLoopH_fail (hf : List Byte → Nat) {inv T2 : List Byte}
    (hinv : validUtf8 inv = false) :
    ∀ (g : List (List Byte)) (a e : Nat) (st : PState) (fuel : Nat),
    segs (g.flatten ++ (inv ++ T2)) = g ++ segs (inv ++ T2) →
    takeLine (inv ++ T2) = inv →
    (∀ x ∈ g, validUtf8 x = true) →
    a + lenSum g < e →
    g.length + 1 ≤ fuel →
    (procLoopH hf fuel (g.flatten ++ (inv ++ T2)) e a st).1
      = Except.error PErr.readError := by
  intro g
  induction g with
  | nil =>
    intro a e st fuel _ htakeT _ hae hfuel
    obtain ⟨f, rfl⟩ : ∃ f, fuel = f + 1 := ⟨fuel - 1, by omega⟩
    have hinvne : inv ≠ [] := by
      intro hcon
      rw [hcon] at hinv
      exact absurd hinv (by decide)
    have hTne : inv ++ T2 ≠ [] := fun hc => hinvne (List.append_eq_nil.mp hc).1
    rw [lenSum_nil] at hae
    have ha : ¬ e ≤ a := by omega
    simp only [List.flatten_nil, List.nil_append, procLoopH]
    rw [if_neg ha, if_neg hTne, htakeT, if_pos hinv]
  | cons x g2 ih =>
    intro a e st fuel hsegs htakeT hval hae hfuel
    have hsegs2 : segs ((x :: g2).flatten ++ (inv ++ T2))
        = x :: (g2 ++ segs (inv ++ T2)) := by
      rw [hsegs, List.cons_append]
    have hxne : x ≠ [] := by
      apply mem_segs_ne_nil ((x :: g2).flatten ++ (inv ++ T2))
      rw [hsegs2]
      exact List.mem_cons_self _ _
    have hxlen : 0 < x.length := List.length_pos.mpr hxne
    have hflat : (x :: g2).flatten ++ (inv ++ T2) = x ++ (g2.flatten ++ (inv ++ T2)) := by
      simp
    have htake : takeLine ((x :: g2).flatten ++ (inv ++ T2)) = x := takeLine_segs hsegs2
    have hdropf : dropLine ((x :: g2).flatten ++ (inv ++ T2))
        = g2.flatten ++ (inv ++ T2) := by
      have h2 := dropLine_flatten hsegs2
      rw [h2]
      simp [flatten_segs]
    have hdrops : segs (g2.flatten ++ (inv ++ T2)) = g2 ++ segs (inv ++ T2) := by
      have h2 := segs_dropLine hsegs2
      rw [hdropf] at h2
      rw [h2]
    obtain ⟨f, rfl⟩ : ∃ f, fuel = f + 1 := ⟨fuel - 1, by omega⟩
    have hne2 : (x :: g2).flatten ++ (inv ++ T2) ≠ [] := by
      rw [hflat]
      exact fun hc => hxne (List.append_eq_nil.mp hc).1
    have hoff : ¬ (e ≤ a) := by
      have h0 : 0 ≤ lenSum (x :: g2) := Nat.zero_le _
      omega
    have hvx : validUtf8 x = true := hval x (List.mem_cons_self x g2)
    have hskip : ¬ (x = [] ∧ x.length = 1) := fun hc => hxne hc.1
    have hstep : procLoopH hf (f + 1) ((x :: g2).flatten ++ (inv ++ T2)) e a st =
        procLoopH hf f (g2.flatten ++ (inv ++ T2)) e (a + x.length)
          (procLineH hf st x) := by
      simp only [procLoopH, if_neg hoff, if_neg hne2, htake, hvx]
      have hdropf2 : dropLine (x ++ (g2.flatten ++ (inv ++ T2)))
          = g2.flatten ++ (inv ++ T2) := by
        rw [← hflat]
        exact hdropf
      simp [hskip, hdropf, hdropf2]
    rw [hstep]
    exact ih (a + x.length) e (procLineH hf st x) f hdrops htakeT
      (fun y hy => hval y (List.mem_cons_of_mem x hy))
      (by rw [lenSum_cons] at hae; omega)
      (by simp only [List.length_cons] at hfuel; omega)

/-- A chunk whose end lies past the decodable front fails with a read
error. -/
theorem process_chunkH_fail (hf : List Byte → Nat) {data inv T2 : List Byte}
    {g : List (List Byte)} {a e : Nat} (st : PState)
    (hinv : validUtf8 inv = false)
    (ha : a ≤ data.length)
    (hdrop : data.drop a = g.flatten ++ (inv ++ T2))
    (hsegs : segs (g.flatten ++ (inv ++ T2)) = g ++ segs (inv ++ T2))
    (htakeT : takeLine (inv ++ T2) = inv)
    (hval : ∀ x ∈ g, validUtf8 x = true)
    (hae : a + lenSum g < e)
    (hgfl : g.length + 1 ≤ data.length + 1) :
    (process_chunk_streamH hf data ⟨a, e⟩ st).1 = Except.error PErr.readError := by
  simp only [process_chunk_streamH]
  rw [if_neg (show ¬ data.length < a by omega), hdrop]
  exact procLoopH_fail hf hinv g a e st (data.length + 1) hsegs htakeT hval hae hgfl

/-- The chunk loop on an appended list runs the first part and continues with
the second at the shifted index. -/
theorem chunkLoopH_append (hf : List Byte → Nat) (data : List Byte) :
    ∀ (cs1 cs2 : List Chunk) (idx : Nat) (st : PState),
    chunkLoopH hf data (cs1 ++ cs2) idx st
      = (match chunkLoopH hf data cs1 idx st with
        | Except.error e => Except.error e
        | Except.ok st2 => chunkLoopH hf data cs2 (idx + cs1.length) st2) := by
  intro cs1
  induction cs1 with
  | nil =>
    intro cs2 idx st
    simp [chunkLoopH]
  | cons c cs1b ih =>
    intro cs2 idx st
    simp only [List.cons_append, chunkLoopH]
    rcases hp : process_chunk_streamH hf data c st with ⟨r, st1⟩
    cases r with
    | error e => rfl
    | ok u =>
      simp only [List.append_eq]
      rw [ih cs2 (idx + 1) (if (idx + 1) % 50 = 0 then sinkFlush st1 else st1)]
      cases chunkLoopH hf data cs1b (idx + 1)
          (if (idx + 1) % 50 = 0 then sinkFlush st1 else st1) with
      | error e2 => rfl
      | ok st2 =>
        simp only [List.length_cons]
        congr 1
        omega

/-- A run on an input with an undecodable line followed by further content
never succeeds: a chunk end lies past the decodable front and processing
that chunk fails. -/
theorem runH_fail_mid (hf : List Byte → Nat) {data : List Byte} (target : Nat)
    {V : List (List Byte)} {inv : List Byte} {rest : List (List Byte)}
    (hsegs : segs data = V ++ inv :: rest)
    (hv : ∀ x ∈ V, validUtf8 x = true)
    (hinv : validUtf8 inv = false) (hrest : rest ≠ []) (st : PState) :
    deduplicator_processH hf data target ≠ Except.ok st := by
  intro hok
  obtain ⟨e, C2, hfcb, he⟩ := find_chunk_boundaries_mid target hsegs hv hinv hrest
  have hCA := closedGroups_flatten_open target V [] 0
  simp only [List.nil_append] at hCA
  have hsegstail : segs (inv ++ rest.flatten) = inv :: rest := by
    have h1 := segs_suffix_restore hsegs
    simpa using h1
  have hdata : data = V.flatten ++ (inv ++ rest.flatten) := by
    have h1 := flatten_segs data
    rw [hsegs] at h1
    simpa using h1.symm
  have hsegs4 : segs data = (closedGroups target V [] 0).flatten
      ++ (openAcc target V [] 0 ++ inv :: rest) := by
    rw [hsegs]
    conv_lhs => rw [← hCA]
    simp [List.append_assoc]
  have hsegsT : segs ((openAcc target V [] 0).flatten ++ (inv ++ rest.flatten))
      = openAcc target V [] 0 ++ (inv :: rest) := by
    have h5 := segs_suffix_restore hsegs4
    rw [List.flatten_append] at h5
    simpa using h5
  have hVflat : V.flatten
      = (closedGroups target V [] 0).flatten.flatten ++ (openAcc target V [] 0).flatten := by
    conv_lhs => rw [← hCA]
    simp
  have hdataC : data = (closedGroups target V [] 0).flatten.flatten
      ++ ((openAcc target V [] 0).flatten ++ (inv ++ rest.flatten)) := by
    rw [hdata, hVflat, List.append_assoc]
  have hlenVC : lenSum (closedGroups target V [] 0).flatten
      + lenSum (openAcc target V [] 0) = lenSum V := by
    rw [← lenSum_append, hCA]
  have hlenV : lenSum V ≤ data.length := by
    rw [lenSum_eq_length_flatten, hdata]
    simp
  have hmemCV : ∀ x ∈ (closedGroups target V [] 0).flatten, x ∈ V := by
    intro x hx
    rw [← hCA]
    exact List.mem_append_left _ hx
  have hmemAV : ∀ x ∈ openAcc target V [] 0, x ∈ V := by
    intro x hx
    rw [← hCA]
    exact List.mem_append_right _ hx
  obtain ⟨st2, hokC, _, _⟩ := chunkLoopH_groups_tail hf data (closedGroups target V [] 0)
    ((openAcc target V [] 0).flatten ++ (inv ++ rest.flatten)) 0 0 initState
    (by
      intro g hg x hx
      exact hv x (hmemCV x (List.mem_flatten.mpr ⟨g, hg, hx⟩)))
    (fun g hg => closedGroups_ne_nil target V [] 0 g hg)
    (by rw [List.drop_zero]; exact hdataC)
    (by rw [List.drop_zero, hsegs4, hsegsT])
    rfl
  have haA : lenSum (closedGroups target V [] 0).flatten ≤ data.length := by omega
  have hdropA : data.drop (lenSum (closedGroups target V [] 0).flatten)
      = (openAcc target V [] 0).flatten ++ (inv ++ rest.flatten) := by
    rw [lenSum_eq_length_flatten, hdataC]
    exact List.drop_left _ _
  have hsegsAfail : segs ((openAcc target V [] 0).flatten ++ (inv ++ rest.flatten))
      = openAcc target V [] 0 ++ segs (inv ++ rest.flatten) := by
    rw [hsegsT, hsegstail]
  have htakeinv : takeLine (inv ++ rest.flatten) = inv := takeLine_segs hsegstail
  have hvalA : ∀ x ∈ openAcc target V [] 0, validUtf8 x = true :=
    fun x hx => hv x (hmemAV x hx)
  have haeA : lenSum (closedGroups target V [] 0).flatten
      + lenSum (openAcc target V [] 0) < e := by omega
  have hAne : ∀ x ∈ openAcc target V [] 0, x ≠ [] := fun x hx =>
    mem_segs_ne_nil data x (hsegs ▸ List.mem_append_left _ (hmemAV x hx))
  have hgflA : (openAcc target V [] 0).length + 1 ≤ data.length + 1 := by
    have h6 := length_le_lenSum hAne
    omega
  have hfailp := process_chunkH_fail hf st2 hinv haA hdropA hsegsAfail htakeinv hvalA
    haeA hgflA
  have hfail : chunkLoopH hf data
      (⟨lenSum (closedGroups target V [] 0).flatten, e⟩ :: C2)
      (0 + (chunkOffsets 0 ((closedGroups target V [] 0).map lenSum)).length) st2
      = Except.error PErr.readError := by
    simp only [chunkLoopH]
    rcases hp : process_chunk_streamH hf data
      ⟨lenSum (closedGroups target V [] 0).flatten, e⟩ st2 with ⟨r, stx⟩
    rw [hp] at hfailp
    have hr : r = Except.error PErr.readError := hfailp
    rw [hr]
  have hloopeq : chunkLoopH hf data (find_chunk_boundaries data target) 0 initState
      = Except.error PErr.readError := by
    rw [hfcb, chunkLoopH_append hf data
      (chunkOffsets 0 ((closedGroups target V [] 0).map lenSum))
      (⟨lenSum (closedGroups target V [] 0).flatten, e⟩ :: C2) 0 initState, hokC]
    exact hfail
  simp only [deduplicator_processH] at hok
  split at hok
  · exact absurd hok (by simp)
  · rw [hloopeq] at hok
    simp at hok

/-- Characterization of every successful run: it processes, in file order,
exactly the lines of a decodable initial segment of the input, and flushes
exactly the written lines. -/
theorem runH_general (hf : List Byte → Nat) (data : List Byte) (target : Nat) (st : PState)
    (h : deduplicator_processH hf data target = Except.ok st) :
    ∃ V W, segs data = V ++ W ∧ (∀ x ∈ V, validUtf8 x = true) ∧
      projL st = runLH hf initL V ∧ st.buf = [] ∧
      st.flushed = (runLH hf initL V).written.flatten := by
  rcases hW : (segs data).dropWhile validUtf8 with _ | ⟨inv, rest⟩
  · have hsplitTD := List.takeWhile_append_dropWhile (p := validUtf8) (l := segs data)
    rw [hW, List.append_nil] at hsplitTD
    have hall : ∀ x ∈ segs data, validUtf8 x = true := by
      intro x hx
      have hx2 : x ∈ (segs data).takeWhile validUtf8 := by
        rw [hsplitTD]
        exact hx
      exact List.mem_takeWhile_imp hx2
    obtain ⟨st0, h0, hp0, hb0, hf0⟩ := runH_valid hf data target hall
    rw [h] at h0
    simp only [Except.ok.injEq] at h0
    subst h0
    exact ⟨segs data, [], by simp, hall, hp0, hb0, hf0⟩
  · have hsplitTD := List.takeWhile_append_dropWhile (p := validUtf8) (l := segs data)
    rw [hW] at hsplitTD
    have hvV : ∀ x ∈ (segs data).takeWhile validUtf8, validUtf8 x = true :=
      fun x hx => List.mem_takeWhile_imp hx
    have hinv : validUtf8 inv = false := dropWhile_head_false (segs data) hW
    rcases rest with _ | ⟨y, r2⟩
    · obtain ⟨st0, h0, hp0, hb0, hf0⟩ := runH_prefix hf target hsplitTD.symm hvV hinv
      rw [h] at h0
      simp only [Except.ok.injEq] at h0
      subst h0
      exact ⟨(segs data).takeWhile validUtf8, [inv], hsplitTD.symm, hvV, hp0, hb0, hf0⟩
    · exact absurd h (runH_fail_mid hf target hsplitTD.symm hvV hinv (by simp) st)

/-! The claims. -/

/-- Claim C1: after every complete run, on every input file (decodable or
not) and every chunk size, no two output lines share their case-insensitive
content, any input line that appears in the output is byte-identical with
the first line in file order carrying that case-insensitive content, and the
output file is exactly the concatenation of the written lines.  The lowercase
mapping is left abstract (the source applies String::to_lowercase, the full
Unicode mapping) and the per-line fingerprint hf is any function that
identifies lines with equal lowercased content, as the program's
DefaultHasher of the lowercased line does; a successful run processes exactly
the lines of a decodable initial segment of the file, so runs that survive
undecodable content are covered as well. -/
theorem c1_global_dedup_first_wins (lower : List Byte → List Byte)
    (hf : List Byte → Nat)
    (hcong : ∀ a b : List Byte, lower a = lower b → hf a = hf b)
    (data : List Byte) (target : Nat) (st : PState)
    (h : deduplicator_processH hf data target = Except.ok st) :
    (∀ p q (hp : p < st.written.length) (hq : q < st.written.length), p ≠ q →
      lower (st.written.get ⟨p, hp⟩) ≠ lower (st.written.get ⟨q, hq⟩)) ∧
    (∀ j (hj : j < (segs data).length), (segs data).get ⟨j, hj⟩ ∈ st.written →
      (segs data).find?
          (fun s => lower s == lower ((segs data).get ⟨j, hj⟩))
        = some ((segs data).get ⟨j, hj⟩)) ∧
    st.flushed = st.written.flatten := by
  obtain ⟨V, W, hsegsVW, hvV, hp0, hb0, hf0⟩ := runH_general hf data target st h
  have hw : st.written = (runLH hf initL V).written := congrArg LState.written hp0
  obtain ⟨hseen_eq, hnodup, hfirst, hprocseen, hsub⟩ := runLH_main lower hf hcong V
  refine ⟨?_, ?_, ?_⟩
  · rw [hw]
    intro p q hp hq hne heq
    apply hne
    have hnd : ((runLH hf initL V).written.map hf).Nodup := by
      rw [← hseen_eq]
      exact hnodup
    have hpm : p < ((runLH hf initL V).written.map hf).length := by
      simpa using hp
    have hqm : q < ((runLH hf initL V).written.map hf).length := by
      simpa using hq
    have hmap : ((runLH hf initL V).written.map hf).get ⟨p, hpm⟩
        = ((runLH hf initL V).written.map hf).get ⟨q, hqm⟩ := by
      simp only [List.get_eq_getElem, List.getElem_map]
      exact hcong _ _ (by simpa [List.get_eq_getElem] using heq)
    have hinj := (List.Nodup.get_inj_iff hnd).mp hmap
    simpa using hinj
  · rw [hw]
    intro j hj hmem
    obtain ⟨wj, hwj⟩ : ∃ wj, (segs data).get ⟨j, hj⟩ = wj := ⟨_, rfl⟩
    rw [hwj] at hmem ⊢
    have hfind1 := hfirst _ hmem
    rw [hsegsVW, List.find?_append, hfind1]
    rfl
  · rw [hw]
    exact hf0

/-- Claim C1 witness at the input A NL a NL with chunk size one, the ASCII
lowercase mapping and the concrete DefaultHasher fingerprint. -/
theorem c1_witness :
    (∀ a b : List Byte, toLowerBytes a = toLowerBytes b → hashOf a = hashOf b) ∧
    deduplicator_processH hashOf [65, 10, 97, 10] 1
      = Except.ok (runStateOfH hashOf [65, 10, 97, 10] 1) ∧
    ((∀ p q (hp : p < (runStateOfH hashOf [65, 10, 97, 10] 1).written.length)
        (hq : q < (runStateOfH hashOf [65, 10, 97, 10] 1).written.length), p ≠ q →
        toLowerBytes ((runStateOfH hashOf [65, 10, 97, 10] 1).written.get ⟨p, hp⟩)
          ≠ toLowerBytes ((runStateOfH hashOf [65, 10, 97, 10] 1).written.get ⟨q, hq⟩)) ∧
      (∀ j (hj : j < (segs [65, 10, 97, 10]).length),
        (segs [65, 10, 97, 10]).get ⟨j, hj⟩
            ∈ (runStateOfH hashOf [65, 10, 97, 10] 1).written →
        (segs [65, 10, 97, 10]).find? (fun s => toLowerBytes s
            == toLowerBytes ((segs [65, 10, 97, 10]).get ⟨j, hj⟩))
          = some ((segs [65, 10, 97, 10]).get ⟨j, hj⟩)) ∧
      (runStateOfH hashOf [65, 10, 97, 10] 1).flushed
        = (runStateOfH hashOf [65, 10, 97, 10] 1).written.flatten) :=
  ⟨fun _ _ hab => hashOf_eq_of_lower_eq hab, rfl,
    c1_global_dedup_first_wins toLowerBytes hashOf
      (fun _ _ hab => hashOf_eq_of_lower_eq hab) [65, 10, 97, 10] 1
      (runStateOfH hashOf [65, 10, 97, 10] 1) rfl⟩

/-- Claim C2 (code bug): on the input FF NL b NL, boundary discovery
recovers from the invalid first line and keeps its bytes inside the single
chunk, but process_chunk_stream has no recovery: its read_line fails on the
same bytes and the whole run returns an error instead of finishing with the
valid trailing line in the output. -/
theorem c2_recovered_input_fails_processing :
    deduplicator_process [255, 10, 98, 10] 100 = Except.error PErr.readError := rfl

/-- Claim C3 (code bug): the empty-line skip in process_chunk_stream is dead
code, because read_line keeps the terminator in the returned line, so a bare
terminator line is never the empty string.  On the input NL NL the run
counts two processed lines, writes the first bare terminator to the output
and counts the second as a duplicate, instead of skipping both reads. -/
theorem c3_empty_lines_are_processed :
    deduplicator_process [10, 10] 1 = Except.ok (runStateOf [10, 10] 1) ∧
    (runStateOf [10, 10] 1).lines_processed = 2 ∧
    (runStateOf [10, 10] 1).duplicates_removed = 1 ∧
    (runStateOf [10, 10] 1).flushed = [10] :=
  ⟨rfl, rfl, rfl, rfl⟩

/-- Claim C4 counterexample: process_chunk_stream returns successfully on
the chunk holding the single line a NL while the written bytes are still
sitting in the sink buffer: there is no unconditional flush before the
processor returns. -/
theorem c4_counterexample :
    (process_chunk_stream [97, 10] (Chunk.mk 0 2) initState).1 = Except.ok () ∧
    (process_chunk_stream [97, 10] (Chunk.mk 0 2) initState).2.buf = [97, 10] :=
  ⟨rfl, rfl⟩

/-- Claim C4 (amended): the chunk processor flushes only when the dedup-set
size is a multiple of 100000; the unconditional flush before returning
happens once in Deduplicator::process, so at the end of every successful run
the sink buffer is empty and the output file holds exactly the written
lines. -/
theorem c4_run_flushes_before_return (data : List Byte) (target : Nat) (st : PState)
    (h : deduplicator_process data target = Except.ok st) :
    st.buf = [] ∧ st.flushed = st.written.flatten :=
  ⟨(run_ok_inv data target st h).1, (run_ok_inv data target st h).2.1⟩

/-- Claim C4 witness. -/
theorem c4_witness :
    deduplicator_process [97, 10] 1 = Except.ok (runStateOf [97, 10] 1) ∧
    ((runStateOf [97, 10] 1).buf = [] ∧
      (runStateOf [97, 10] 1).flushed = (runStateOf [97, 10] 1).written.flatten) :=
  ⟨rfl, c4_run_flushes_before_return [97, 10] 1 (runStateOf [97, 10] 1) rfl⟩

/-- Claim C5 counterexample: on the input x NL FF FF FF NL c NL with target
three, the offset lag introduced by the decode recovery makes the finder
return the single chunk from zero to four, whose end is neither the file
size nor one past a terminator (byte three is FF). -/
theorem c5_counterexample :
    find_chunk_boundaries [120, 10, 255, 255, 255, 10, 99, 10] 3 = [Chunk.mk 0 4] ∧
    ([120, 10, 255, 255, 255, 10, 99, 10] : List Byte)[4 - 1]? ≠ some 10 ∧
    (4 : Nat) ≠ ([120, 10, 255, 255, 255, 10, 99, 10] : List Byte).length :=
  ⟨rfl, by decide, by decide⟩

/-- Claim C5 (amended): when the input decodes (so the recovery path never
runs), every chunk of find_chunk_boundaries ends either at the file size or
directly after a line terminator. -/
theorem c5_boundaries_line_aligned (data : List Byte) (target : Nat)
    (hv : (segs data).all validUtf8 = true) :
    ∀ c ∈ find_chunk_boundaries data target,
      c.end_offset = data.length ∨
      (0 < c.end_offset ∧ c.end_offset ≤ data.length ∧
        data[c.end_offset - 1]? = some 10) :=
  find_chunk_boundaries_aligned data target (List.all_eq_true.mp hv)

/-- Claim C5 witness. -/
theorem c5_witness :
    ((segs [97, 10, 98, 10]).all validUtf8 = true) ∧
    (∀ c ∈ find_chunk_boundaries [97, 10, 98, 10] 2,
      c.end_offset = ([97, 10, 98, 10] : List Byte).length ∨
      (0 < c.end_offset ∧ c.end_offset ≤ ([97, 10, 98, 10] : List Byte).length ∧
        ([97, 10, 98, 10] : List Byte)[c.end_offset - 1]? = some 10)) :=
  ⟨by decide, c5_boundaries_line_aligned [97, 10, 98, 10] 2 (by decide)⟩

/-- Claim C6 counterexample: with target one, the three-byte line a b NL is
returned as the single chunk from zero to three, larger than the target. -/
theorem c6_counterexample :
    find_chunk_boundaries [97, 98, 10] 1 = [Chunk.mk 0 3] ∧
    ¬ ((Chunk.mk 0 3).end_offset - (Chunk.mk 0 3).start_offset ≤ 1) :=
  ⟨rfl, by decide⟩

/-- Claim C6 (amended): a chunk is closed at the first line end at or past
the target, so every chunk is smaller than the target plus the length of the
longest line of the input (terminator included). -/
theorem c6_chunk_size_bound (data : List Byte) (target : Nat) (ht : 0 < target) :
    ∀ c ∈ find_chunk_boundaries data target,
      c.end_offset - c.start_offset < target + maxSegLen data :=
  find_chunk_boundaries_bound data target ht

/-- Claim C6 witness. -/
theorem c6_witness :
    (0 : Nat) < 1 ∧
    (∀ c ∈ find_chunk_boundaries [97, 98, 10] 1,
      c.end_offset - c.start_offset < 1 + maxSegLen [97, 98, 10]) :=
  ⟨by decide, c6_chunk_size_bound [97, 98, 10] 1 (by decide)⟩

/-- Claim C7: running the engine again on the output of a complete run,
for every input file (decodable or not), every pair of chunk sizes and any
per-line fingerprint (the program's is DefaultHasher of the Unicode-
lowercased line), succeeds, writes a byte-identical output file and removes
zero duplicates: the first run's output is a concatenation of decodable
lines with pairwise distinct fingerprints. -/
theorem c7_rerun_idempotent (hf : List Byte → Nat) (data : List Byte) (t1 t2 : Nat)
    (st1 : PState)
    (h1 : deduplicator_processH hf data t1 = Except.ok st1) :
    ∃ st2, deduplicator_processH hf st1.flushed t2 = Except.ok st2 ∧
      st2.flushed = st1.flushed ∧ st2.duplicates_removed = 0 := by
  obtain ⟨V, W, hsegsVW, hvV, hp0, hb0, hf0⟩ := runH_general hf data t1 st1 h1
  have hcong : ∀ a b : List Byte, id a = id b → hf a = hf b := fun a b hab => by
    simpa using congrArg hf hab
  obtain ⟨hseen_eq, hnodup, hfirst, hprocseen, hsub⟩ := runLH_main id hf hcong V
  have hVsub : ∀ x ∈ V, x ∈ segs data := fun x hx =>
    hsegsVW ▸ List.mem_append_left _ hx
  have hVsl : List.Sublist V (segs data) := by
    rw [hsegsVW]
    exact List.sublist_append_left V W
  have hWel_ne : ∀ x ∈ (runLH hf initL V).written, x ≠ [] :=
    fun x hx => mem_segs_ne_nil data x (hVsub x (hsub.subset hx))
  have hWel_mid : ∀ x ∈ (runLH hf initL V).written, (10 : Byte) ∉ x.dropLast :=
    fun x hx => mem_segs_noMid data x (hVsub x (hsub.subset hx))
  have hWwf : TermWF (runLH hf initL V).written :=
    termwf_of_sublist (hsub.trans hVsl) (termwf_segs data)
  have hsegW : segs (runLH hf initL V).written.flatten
      = (runLH hf initL V).written := segs_flatten_eq hWel_ne hWel_mid hWwf
  have hWv : ∀ x ∈ segs (runLH hf initL V).written.flatten, validUtf8 x = true := by
    rw [hsegW]
    exact fun x hx => hvV x (hsub.subset hx)
  obtain ⟨st2, h2, hp2, hbuf2, hfl2⟩ := runH_valid hf (runLH hf initL V).written.flatten
    t2 hWv
  have hNod : ((runLH hf initL V).written.map hf).Nodup := by
    rw [← hseen_eq]
    exact hnodup
  have hfresh := runLH_fresh hf (runLH hf initL V).written initL (by simp [initL]) hNod
  refine ⟨st2, by rw [hf0]; exact h2, ?_, ?_⟩
  · rw [hfl2, hsegW, hfresh.1, hf0]
    simp [initL]
  · have hd2 : st2.duplicates_removed = (projL st2).duplicates_removed := rfl
    rw [hd2, hp2, hsegW, hfresh.2]
    rfl

/-- Claim C7 witness at the input a NL, first chunk size one, second chunk
size two, with the concrete DefaultHasher fingerprint. -/
theorem c7_witness :
    deduplicator_processH hashOf [97, 10] 1 = Except.ok (runStateOfH hashOf [97, 10] 1) ∧
    (∃ st2, deduplicator_processH hashOf (runStateOfH hashOf [97, 10] 1).flushed 2
        = Except.ok st2 ∧
      st2.flushed = (runStateOfH hashOf [97, 10] 1).flushed ∧
      st2.duplicates_removed = 0) :=
  ⟨rfl, c7_rerun_idempotent hashOf [97, 10] 1 2 (runStateOfH hashOf [97, 10] 1) rfl⟩

/-- Claim C8: on the input Apple NL apple NL Banana NL APPLE NL and any
chunk size of at least one byte, the run succeeds, the output file is
exactly Apple NL Banana NL, four lines are processed and two duplicates are
removed. -/
theorem c8_concrete_scenario (target : Nat) (_ht : 1 ≤ target) :
    ∃ st, deduplicator_process appleIn target = Except.ok st ∧
      st.flushed = appleOut ∧ st.lines_processed = 4 ∧ st.duplicates_removed = 2 := by
  obtain ⟨st, h, hp, hbuf, hfl⟩ := run_valid appleIn target (by decide)
  refine ⟨st, h, ?_, ?_, ?_⟩
  · rw [hfl]
    decide
  · have h2 : st.lines_processed = (runL initL (segs appleIn)).lines_processed :=
      congrArg LState.lines_processed hp
    rw [h2]
    decide
  · have h2 : st.duplicates_removed = (runL initL (segs appleIn)).duplicates_removed :=
      congrArg LState.duplicates_removed hp
    rw [h2]
    decide

/-- Claim C8 witness. -/
theorem c8_witness :
    (1 : Nat) ≤ 1 ∧
    (∃ st, deduplicator_process appleIn 1 = Except.ok st ∧
      st.flushed = appleOut ∧ st.lines_processed = 4 ∧ st.duplicates_removed = 2) :=
  ⟨by decide, c8_concrete_scenario 1 (by decide)⟩

/-- Claim C9: process_chunk_stream returns the invalid-chunk error whenever
the chunk's start offset exceeds the file size, and on that path the whole
state (write log, sink, dedup set, counters) is returned unchanged: nothing
was read, written, inserted or counted. -/
theorem c9_invalid_start_error_atomic (data : List Byte) (chunk : Chunk)
    (st : PState) (h : data.length < chunk.start_offset) :
    process_chunk_stream data chunk st = (Except.error PErr.invalidChunk, st) := by
  simp [process_chunk_stream, h]

/-- Claim C9 witness. -/
theorem c9_witness :
    ([] : List Byte).length < (Chunk.mk 5 9).start_offset ∧
    process_chunk_stream [] (Chunk.mk 5 9) initState
      = (Except.error PErr.invalidChunk, initState) :=
  ⟨by decide, c9_invalid_start_error_atomic [] (Chunk.mk 5 9) initState (by decide)⟩

/-- Claim C10: after every complete run, the number of write_all calls on
the output sink plus the duplicates counter equals the processed-lines
counter, hence the number of written lines is lines_processed minus
duplicates_removed. -/
theorem c10_written_balance (data : List Byte) (target : Nat) (st : PState)
    (h : deduplicator_process data target = Except.ok st) :
    st.written.length + st.duplicates_removed = st.lines_processed ∧
    st.written.length = st.lines_processed - st.duplicates_removed := by
  have h2 := (run_ok_inv data target st h).2.2
  exact ⟨h2, by omega⟩

/-- Claim C10 witness. -/
theorem c10_witness :
    deduplicator_process [97, 10, 97, 10] 1 = Except.ok (runStateOf [97, 10, 97, 10] 1) ∧
    ((runStateOf [97, 10, 97, 10] 1).written.length
        + (runStateOf [97, 10, 97, 10] 1).duplicates_removed
      = (runStateOf [97, 10, 97, 10] 1).lines_processed ∧
    (runStateOf [97, 10, 97, 10] 1).written.length
      = (runStateOf [97, 10, 97, 10] 1).lines_processed
        - (runStateOf [97, 10, 97, 10] 1).duplicates_removed) :=
  ⟨rfl, c10_written_balance [97, 10, 97, 10] 1 (runStateOf [97, 10, 97, 10] 1) rfl⟩

end Rsort
